import Mathlib

/-!
Verification of the Mail2Do action-extraction pipeline
(`scripts/local_email_processor.py`) against its natural-language
specification.  The Python functions are shallowly embedded as executable
Lean definitions over `List Char` / `String`; the regular expressions the
code uses are interpreted by a small backtracking engine with Python `re`
semantics (leftmost match, greedy quantifiers, preference-ordered
alternation).  External collaborators (the OpenAI completion client and
`dateutil`'s fuzzy parser) are modelled as oracle parameters, so theorems
quantifying over the oracles express that a code path never consults them.
-/

set_option maxRecDepth 8000
set_option linter.unusedVariables false

namespace Mail2Do

/-! ## Basic character classes and Python-style string helpers -/

/-- Python whitespace (`\s`, `str.strip`) restricted to the characters that
can occur in this repository's data. -/
def isPyWs (c : Char) : Bool :=
  c == ' ' || c == '\t' || c == '\n' || c == '\r' ||
  c.val == 11 || c.val == 12 ||
  c.val == 0x1c || c.val == 0x1d || c.val == 0x1e || c.val == 0x85 ||
  c.val == 0xa0 || c.val == 0x2028 || c.val == 0x2029

/-- Hangul syllable block (U+AC00–U+D7A3), the `가-힣` range used by the
source's mention regexes. -/
def isHangulSyl (c : Char) : Bool := 0xAC00 ≤ c.val && c.val ≤ 0xD7A3

/-- Python word character (`\w`, used for `\b`) restricted to the scripts the
repository's texts use: ASCII alphanumerics, underscore, Hangul syllables. -/
def isPyWord (c : Char) : Bool := c.isAlphanum || c == '_' || isHangulSyl c

/-- Python `str.strip()` on a character list. -/
def pyStripL (l : List Char) : List Char :=
  ((l.dropWhile isPyWs).reverse.dropWhile isPyWs).reverse

/-- Python `str.rstrip()` on a character list. -/
def pyRStripL (l : List Char) : List Char := (l.reverse.dropWhile isPyWs).reverse

/-- Python `str.lower()` (ASCII portion; Hangul and digits are unaffected by
Python's `lower` as well). -/
def lowerL (l : List Char) : List Char := l.map Char.toLower

/-- Python `str.upper()` (ASCII portion). -/
def upperL (l : List Char) : List Char := l.map Char.toUpper

/-- Python `str.replace(" ", "")`. -/
def noSpacesL (l : List Char) : List Char := l.filter (fun c => c ≠ ' ')

/-- Python slice `l[a:b]` for `0 ≤ a ≤ b` (clamped like Python). -/
def sliceRange (l : List Char) (a b : Nat) : List Char := (l.drop a).take (b - a)

/-- Python `haystack.find(needle)`: index of the first occurrence, `none` when
absent (Python returns `-1`). -/
def findSub : List Char → List Char → Option Nat
  | hay, needle =>
    if needle.isPrefixOf hay then some 0
    else
      match hay with
      | [] => none
      | _ :: t => (findSub t needle).map (· + 1)

/-- Python `needle in haystack` (substring test). -/
def containsSub (hay needle : List Char) : Bool := (findSub hay needle).isSome

def pyStripS (s : String) : String := String.mk (pyStripL s.toList)

def containsSubS (hay needle : String) : Bool := containsSub hay.toList needle.toList

/-! ## A small regex engine with Python `re` semantics

Only the combinators needed by the source's patterns are provided.  All the
source's quantified subexpressions range over single-character classes, so
backtracking terminates structurally.  `reMatch` returns the list of possible
(previous character, remaining input) outcomes in Python's preference order;
the head is the match Python's engine picks. -/

inductive RE where
  | eps
  | lit (s : List Char)
  | litCI (s : List Char)
  | cls (p : Char → Bool)
  | seq (a b : RE)
  | alt (a b : RE)
  | opt (a : RE)
  | starCls (p : Char → Bool)
  | plusCls (p : Char → Bool)
  | repCls (p : Char → Bool) (lo hi : Nat)
  | wb

/-- Sequence of several regexes. -/
def RE.cat (l : List RE) : RE := l.foldr RE.seq RE.eps

/-- Consume a literal prefix. -/
def dropLit : List Char → List Char → Option (List Char)
  | [], cs => some cs
  | _ :: _, [] => none
  | p :: ps, c :: cs => if p = c then dropLit ps cs else none

/-- Consume a literal prefix, ASCII-case-insensitively (`re.IGNORECASE`). -/
def dropLitCI : List Char → List Char → Option (List Char)
  | [], cs => some cs
  | _ :: _, [] => none
  | p :: ps, c :: cs => if p.toLower = c.toLower then dropLitCI ps cs else none

/-- Length of the maximal prefix run satisfying a class. -/
def runLen (p : Char → Bool) : List Char → Nat
  | [] => 0
  | c :: cs => if p c then runLen p cs + 1 else 0

/-- `[hi, hi-1, …, lo]` (empty when `hi < lo`): greedy preference order. -/
def descRange (hi lo : Nat) : List Nat :=
  (List.range (hi + 1 - lo)).map (fun i => hi - i)

/-- Last element of a list, with a fallback. -/
def lastD (l : List Char) (dflt : Option Char) : Option Char :=
  match l.getLast? with
  | some c => some c
  | none => dflt

/-- Backtracking matcher.  `prev` is the character just before the current
position (for `\b`).  Results are (new `prev`, remaining input) pairs in
preference order. -/
def reMatch : RE → Option Char → List Char → List (Option Char × List Char)
  | .eps, p, cs => [(p, cs)]
  | .lit s, p, cs =>
    match dropLit s cs with
    | some rest => [(lastD s p, rest)]
    | none => []
  | .litCI s, p, cs =>
    match dropLitCI s cs with
    | some rest => [(lastD (cs.take s.length) p, rest)]
    | none => []
  | .cls _, _, [] => []
  | .cls f, _, c :: cs => if f c then [(some c, cs)] else []
  | .seq a b, p, cs => (reMatch a p cs).flatMap (fun pr => reMatch b pr.1 pr.2)
  | .alt a b, p, cs => reMatch a p cs ++ reMatch b p cs
  | .opt a, p, cs => reMatch a p cs ++ [(p, cs)]
  | .starCls f, p, cs =>
    (descRange (runLen f cs) 0).map (fun k => (lastD (cs.take k) p, cs.drop k))
  | .plusCls f, p, cs =>
    (descRange (runLen f cs) 1).map (fun k => (lastD (cs.take k) p, cs.drop k))
  | .repCls f lo hi, p, cs =>
    (descRange (min (runLen f cs) hi) lo).map (fun k => (lastD (cs.take k) p, cs.drop k))
  | .wb, p, cs =>
    let before := match p with | some c => isPyWord c | none => false
    let after := match cs with | c :: _ => isPyWord c | [] => false
    if before ≠ after then [(p, cs)] else []

/-- Leftmost search (`re.search`): scan positions left to right, return the
first position with a match together with the match length (Python's engine
takes the head of the preference list at that position). -/
def reSearchAux (r : RE) : Option Char → List Char → Nat → Option (Nat × Nat)
  | p, [], pos =>
    match (reMatch r p []).head? with
    | some _ => some (pos, 0)
    | none => none
  | p, c :: cs, pos =>
    match (reMatch r p (c :: cs)).head? with
    | some pr => some (pos, (c :: cs).length - pr.2.length)
    | none => reSearchAux r (some c) cs (pos + 1)

/-- `re.search` over a character list: `(start, length)` of the match. -/
def reSearch (r : RE) (text : List Char) : Option (Nat × Nat) :=
  reSearchAux r none text 0

/-- One step of `re.finditer`: fuelled iteration (each step consumes at least
one character, so `text.length + 1` fuel suffices). -/
def reFindIterAux (r : RE) : Nat → Option Char → List Char → Nat → List (Nat × Nat)
  | 0, _, _, _ => []
  | fuel + 1, p, cs, pos =>
    match reSearchAux r p cs pos with
    | none => []
    | some (st, len) =>
      let consumed := (st - pos) + max len 1
      (st, len) ::
        reFindIterAux r fuel (lastD (cs.take consumed) p) (cs.drop consumed)
          (pos + consumed)

/-- `re.finditer`: list of `(start, length)` of all non-overlapping matches in
document order. -/
def reFindIter (r : RE) (text : List Char) : List (Nat × Nat) :=
  reFindIterAux r (text.length + 1) none text 0

/-- Matched substrings (`m.group(0)`) of all matches. -/
def reFindAll (r : RE) (text : List Char) : List (List Char) :=
  (reFindIter r text).map (fun m => sliceRange text m.1 (m.1 + m.2))

/-! ## The source's regular expressions as engine terms -/

def wsCls : RE := .starCls isPyWs

def digit : Char → Bool := Char.isDigit

/-- Mention character class of `_get_self_mention_segments` (line 245):
`[A-Za-z가-힣0-9_.\-]`. -/
def mentionChSeg (c : Char) : Bool :=
  c.isAlpha || isHangulSyl c || c.isDigit || c == '_' || c == '.' || c == '-'

/-- Mention character class of `_is_due_for_user` (line 318):
`[A-Za-z가-힣0-9_.]` (no hyphen). -/
def mentionChDue (c : Char) : Bool :=
  c.isAlpha || isHangulSyl c || c.isDigit || c == '_' || c == '.'

/-- `(?:\([^)]+\))?` — optional parenthesised team suffix. -/
def parenSuffix : RE :=
  .opt (.cat [.lit ['('], .plusCls (fun c => c ≠ ')'), .lit [')']])

/-- `@[A-Za-z가-힣0-9_.\-]+(?:\([^)]+\))?` (segmenter, line 245). -/
def mentionSegRE : RE := .cat [.lit ['@'], .plusCls mentionChSeg, parenSuffix]

/-- `@[A-Za-z가-힣0-9_.]+(?:\([^)]+\))?` (due ownership, line 318). -/
def mentionDueRE : RE := .cat [.lit ['@'], .plusCls mentionChDue, parenSuffix]

/-- `@(\S+(?:\([^)]+\))?)` (policy engine, line 525).  `re.findall` returns
group 1 and the code re-prefixes `@`, which reconstructs exactly group 0, so
the full matches are used. -/
def policyMentionRE : RE :=
  .cat [.lit ['@'], .plusCls (fun c => ¬ isPyWs c), parenSuffix]

/-- `\n\s*\n` — blank-line boundary (segmenter, line 282). -/
def blankLineRE : RE := .cat [.lit ['\n'], wsCls, .lit ['\n']]

/-- `(아래\s*작업|다음\s*작업).*(까지|마감|부탁|요청|확인)` (line 329; no DOTALL,
so `.` excludes newlines). -/
def belowTaskRE : RE :=
  .cat
    [.alt (.cat [.lit "아래".toList, wsCls, .lit "작업".toList])
        (.cat [.lit "다음".toList, wsCls, .lit "작업".toList]),
      .starCls (fun c => c ≠ '\n'),
      .alt (.lit "까지".toList)
        (.alt (.lit "마감".toList)
          (.alt (.lit "부탁".toList) (.alt (.lit "요청".toList) (.lit "확인".toList))))]

/-! ## Recipient context and `_is_self_mention_text` (lines 195–230) -/

structure UserCtx where
  name : String
  email : String
  team : String
deriving DecidableEq, Repr

/-- `re.sub(r"(님|씨|님들)$", "", base)` — the anchored alternation removes, at
the end of the string, the leftmost-starting of the three suffixes; that is
`님들` when present, else a final `님` or `씨`. -/
def stripHonorific (l : List Char) : List Char :=
  if (l.reverse.take 2) = ['들', '님'] then l.take (l.length - 2)
  else if l.getLast? = some '님' ∨ l.getLast? = some '씨' then l.take (l.length - 1)
  else l

/-- `_is_self_mention_text` (lines 195–230) on a mention's text. -/
def isSelfMentionL (mentionText : List Char) (u : UserCtx) : Bool :=
  let name := pyStripL u.name.toList
  let email := lowerL (pyStripL u.email.toList)
  let team := pyStripL u.team.toList
  let raw := pyStripL mentionText
  if raw.head? ≠ some '@' then false
  else
    -- '@' stripped, text before the first '(' kept, spaces removed, lowered
    let base0 := (raw.dropWhile (fun c => c == '@')).takeWhile (fun c => c ≠ '(')
    let base := stripHonorific (lowerL (noSpacesL base0))
    let packed := lowerL (noSpacesL raw)
    let emailLocal := if email.isEmpty then [] else email.takeWhile (fun c => c ≠ '@')
    (decide (name ≠ []) && decide (base = lowerL (noSpacesL name))) ||
    (decide (name ≠ []) && ('@' :: lowerL (noSpacesL name)).isPrefixOf packed) ||
    (decide (email ≠ []) && containsSub packed email) ||
    (decide (emailLocal ≠ []) && decide (base = emailLocal)) ||
    (decide (team ≠ []) && containsSub packed (lowerL (noSpacesL team)))

/-- `_is_self_mention_text` on strings. -/
def isSelfMentionText (mention : String) (u : UserCtx) : Bool :=
  isSelfMentionL mention.toList u

/-- Whether a `(start, length)` mention match of `text` is a self mention. -/
def isSelfMatch (text : List Char) (m : Nat × Nat) (u : UserCtx) : Bool :=
  isSelfMentionL (sliceRange text m.1 (m.1 + m.2)) u

/-! ## `_get_self_mention_segments` (lines 232–297) -/

/-- Python line terminators for `str.splitlines` (the subset that can occur
here; `\r\n` is treated as one break). -/
def isLineTerm (c : Char) : Bool :=
  c == '\n' || c == '\r' || c.val == 11 || c.val == 12 ||
  c.val == 0x1c || c.val == 0x1d || c.val == 0x1e || c.val == 0x85 ||
  c.val == 0x2028 || c.val == 0x2029

def pySplitLinesAux : List Char → List Char → List (List Char)
  | [], cur => if cur.isEmpty then [] else [cur.reverse]
  | [c], cur =>
    if isLineTerm c then [cur.reverse] else [(c :: cur).reverse]
  | c :: d :: rest, cur =>
    if c = '\r' && d = '\n' then cur.reverse :: pySplitLinesAux rest []
    else if isLineTerm c then cur.reverse :: pySplitLinesAux (d :: rest) []
    else pySplitLinesAux (d :: rest) (c :: cur)

/-- Python `str.splitlines()`. -/
def pySplitLines (l : List Char) : List (List Char) := pySplitLinesAux l []

/-- `"\n".join(lines)`. -/
def joinNL (ls : List (List Char)) : List Char := List.intercalate ['\n'] ls

/-- Cluster construction (lines 255–265): starting from mention `m`, keep
absorbing the next mention while the gap text between consecutive mentions has
no newline and is at most `CLUSTER_GAP = 80` characters.  Returns the cluster
and the remaining mentions. -/
def clusterSplit (text : List Char) : (Nat × Nat) → List (Nat × Nat) →
    List (Nat × Nat) × List (Nat × Nat)
  | m, [] => ([m], [])
  | m, m2 :: rest =>
    let gap := sliceRange text (m.1 + m.2) m2.1
    if (! gap.contains '\n') && gap.length ≤ 80 then
      let pr := clusterSplit text m2 rest
      (m :: pr.1, pr.2)
    else ([m], m2 :: rest)

theorem clusterSplit_rest_length (text : List Char) (m : Nat × Nat)
    (rest : List (Nat × Nat)) :
    (clusterSplit text m rest).2.length ≤ rest.length := by
  induction rest generalizing m with
  | nil => simp [clusterSplit]
  | cons m2 rest ih =>
    simp only [clusterSplit]
    split
    · simpa using Nat.le_succ_of_le (ih m2)
    · simp

/-- Segment emission for one self-containing cluster (lines 271–293):
back off `BACKOFF = 50` characters before the cluster start, extend to the
next mention (or end of text), cut at the first blank line, cap at 25 lines
and 1500 characters. -/
def mkSegment (text : List Char) (clusterStart nextStart : Nat) :
    Nat × Nat × List Char :=
  let segStart := clusterStart - 50
  let seg0 := sliceRange text segStart nextStart
  let seg1 :=
    match reSearch blankLineRE seg0 with
    | some (st, _) => seg0.take st
    | none => seg0
  let ls := pySplitLines seg1
  let seg2 := if ls.length > 25 then joinNL (ls.take 25) else seg1
  let seg3 := seg2.take 1500
  (segStart, segStart + seg3.length, seg3)

/-- Main loop of `_get_self_mention_segments` over the mention list.  The
fuel only serves structural termination: each iteration consumes at least the
cluster head, so `ms.length` fuel always suffices. -/
def buildSegsAux (text : List Char) (u : UserCtx) :
    Nat → List (Nat × Nat) → List (Nat × Nat × List Char)
  | _, [] => []
  | 0, _ :: _ => []
  | fuel + 1, m :: rest =>
    let pr := clusterSplit text m rest
    let tail := buildSegsAux text u fuel pr.2
    if pr.1.any (fun mm => isSelfMatch text mm u) then
      let nextStart := match pr.2 with | [] => text.length | m2 :: _ => m2.1
      mkSegment text m.1 nextStart :: tail
    else tail

/-- `_get_self_mention_segments(text, user_context)` with the default caps
(`max_chars = 1500`, `max_lines = 25`), as called at line 742.  Returns
`(startOffset, endOffset, segmentText)` triples. -/
def getSelfMentionSegments (text : String) (u : UserCtx) :
    List (Nat × Nat × List Char) :=
  let textL := text.toList
  let mentions := reFindIter mentionSegRE textL
  if mentions.isEmpty then [] else buildSegsAux textL u mentions.length mentions

/-! ## `_is_due_for_user` (lines 299–391) -/

/-- `_find_context` (lines 183–189). -/
def findContext (text snippet : List Char) (width : Nat) : List Char :=
  match findSub text snippet with
  | none => []
  | some i =>
    sliceRange text (i - width) (min text.length (i + snippet.length + width))

/-- Rule 1 (lines 336–343): the candidate lies between a self mention and the
next mention. -/
def dueRule1 (text : List Char) (u : UserCtx) (candIdx : Nat) :
    List (Nat × Nat) → Bool
  | [] => false
  | m :: rest =>
    (isSelfMatch text m u &&
      (let segS := m.1 + m.2
       let segE := match rest with | [] => text.length | m2 :: _ => m2.1
       decide (segS ≤ candIdx) && decide (candIdx < segE))) ||
    dueRule1 text u candIdx rest

/-- Backward cluster construction of rule 2 (lines 354–364): `revPre` is the
list of mentions before the cluster head in reverse document order. -/
def clusterBackward (text : List Char) :
    List (Nat × Nat) → (Nat × Nat) → List (Nat × Nat)
  | [], headM => [headM]
  | prev :: rest, headM =>
    let gap := sliceRange text (prev.1 + prev.2) headM.1
    if (! gap.contains '\n') && gap.length ≤ 80 then
      clusterBackward text rest prev ++ [headM]
    else [headM]

/-- Rule 2 (lines 345–375): the candidate directly follows a mention cluster
containing the recipient. -/
def dueRule2 (text : List Char) (u : UserCtx) (candIdx : Nat)
    (mentions : List (Nat × Nat)) : Bool :=
  let pre := mentions.takeWhile (fun m => m.1 < candIdx)
  match pre.reverse with
  | [] => false
  | lastB :: restRev =>
    let cluster := clusterBackward text restRev lastB
    let clusterEnd := lastB.1 + lastB.2
    let hasBetween :=
      mentions.any (fun m => decide (clusterEnd ≤ m.1) && decide (m.1 < candIdx))
    (! hasBetween) && cluster.any (fun m => isSelfMatch text m u)

/-- Rule 3 (lines 377–389): within the 200-character window before the
candidate, the last mention is the recipient, followed on the same line or by
a request marker. -/
def dueRule3 (text : List Char) (u : UserCtx) (candIdx : Nat) : Bool :=
  let ctx := sliceRange text (candIdx - 200) candIdx
  match (reFindIter mentionDueRE ctx).getLast? with
  | none => false
  | some lastM =>
    isSelfMatch ctx lastM u &&
      (let tail := ctx.drop (lastM.1 + lastM.2)
       (! tail.contains '\n') ||
         (containsSub tail "까지".toList || containsSub tail "마감".toList ||
          containsSub tail "부탁".toList || containsSub tail "요청".toList ||
          containsSub tail "확인".toList || containsSub tail "완료".toList))

/-- `_is_due_for_user(text, cand, user_context)` (lines 299–391). -/
def isDueForUser (text cand : List Char) (u : UserCtx) : Bool :=
  let name := pyStripL u.name.toList
  let email := pyStripL u.email.toList
  let team := pyStripL u.team.toList
  match findSub text cand with
  | none => false
  | some candIdx =>
    let mentions := reFindIter mentionDueRE text
    if mentions.isEmpty then
      let ctx := findContext text cand 80
      (decide (name ≠ []) && containsSub ctx name) ||
      (decide (email ≠ []) && containsSub ctx email) ||
      (decide (team ≠ []) && containsSub ctx team) ||
      (reSearch belowTaskRE ctx).isSome
    else
      dueRule1 text u candIdx mentions ||
      dueRule2 text u candIdx mentions ||
      dueRule3 text u candIdx

/-- `_is_due_for_user` on strings. -/
def isDueForUserS (text cand : String) (u : UserCtx) : Bool :=
  isDueForUser text.toList cand.toList u

/-! ## `analyze_with_policy_engine` (lines 500–603)

The function reads the raw provider fields; the `isinstance` guards coerce
non-list/non-string values to empty, so the input is modelled with the
coerced types directly. -/

structure PolicyInput where
  from_address : String
  to_addresses : List String
  cc_addresses : List String
  email_body : String
deriving DecidableEq, Repr

structure PolicySignals where
  policy_decision : String
  self_sent : Bool
  to_contains_self : Bool
  cc_contains_self : Bool
  mentions : List String
  request_detected : Bool
deriving DecidableEq, Repr

/-- The fixed request keyword list (lines 531–549). -/
def requestKeywords : List String :=
  ["부탁", "요청", "확인", "검토", "승인", "회신", "즉시", "긴급", "마감",
   "완료", "해주세요", "바랍니다", "처리", "대응", "분석", "점검", "실행"]

/-- The decision chain of `analyze_with_policy_engine` (lines 562–594) over
the computed signals. -/
def policyDecision (toContainsSelf ccContainsSelf selfSent requestDetected : Bool)
    (mentions : List String) (uname uteam body : String) : String :=
  let atName := "@" ++ uname
  if toContainsSelf && requestDetected then
    -- user_mentions: mentions containing "@<name>" as a substring
    let userMentions :=
      mentions.filter (fun m => uname ≠ "" && containsSubS m atName)
    -- `not any(mention for mention in mentions if mention != f"@{user_name}")`
    -- (`mention` is tested for truthiness, i.e. non-emptiness)
    if (! mentions.any (fun m => m ≠ atName && m ≠ "")) || ! userMentions.isEmpty
    then "A" else "none"
  else if ccContainsSelf && ! toContainsSelf then
    if mentions.any (fun m => uname ≠ "" && containsSubS m atName)
    then "A" else "B"
  else if selfSent && requestDetected then "C"
  else if toContainsSelf && uteam ≠ "" && containsSubS body uteam
      && requestDetected then "D"
  else "none"

/-- `analyze_with_policy_engine(email_data, user_context)`.  The body is pure,
so the `try/except` wrappers never fire. -/
def analyzeWithPolicyEngine (e : PolicyInput) (u : UserCtx) : PolicySignals :=
  let body := e.email_body
  let mentions := (reFindAll policyMentionRE body.toList).map String.mk
  let requestDetected :=
    body ≠ "" && requestKeywords.any (fun kw => containsSubS body kw)
  let selfSent :=
    e.from_address ≠ "" && u.email ≠ "" && e.from_address == u.email
  let toContainsSelf := u.email ≠ "" && e.to_addresses.contains u.email
  let ccContainsSelf := u.email ≠ "" && e.cc_addresses.contains u.email
  { policy_decision :=
      policyDecision toContainsSelf ccContainsSelf selfSent requestDetected
        mentions u.name u.team body
    self_sent := selfSent
    to_contains_self := toContainsSelf
    cc_contains_self := ccContainsSelf
    mentions := mentions
    request_detected := requestDetected }

/-! ## JSON values and `_validate_and_fix_action` (lines 664–725)

The validator receives `json.loads` output, i.e. an arbitrary JSON value.
Python raises `AttributeError` on `.get`/`.upper`/`.strip` of wrongly-typed
fields; those raises are modelled with `Except.error` (the callers catch every
exception, so only success/failure matters). -/

inductive Json where
  | null
  | bool (b : Bool)
  | num (n : Int)
  | str (s : String)
  | arr (xs : List Json)
  | obj (kvs : List (String × Json))

/-- Python truthiness of a JSON value. -/
def jTruthy : Json → Bool
  | .null => false
  | .bool b => b
  | .num n => n ≠ 0
  | .str s => s ≠ ""
  | .arr xs => ! xs.isEmpty
  | .obj kvs => ! kvs.isEmpty

/-- `dict.get(key)` — `null` models Python's `None` for a missing key (the
source only calls `.get` on values it has checked to be dicts). -/
def jGet : Json → String → Json
  | .obj kvs, k =>
    match kvs.find? (fun kv => kv.1 = k) with
    | some kv => kv.2
    | none => .null
  | _, _ => .null

/-- `dict.get(key, default)`. -/
def jGetD (j : Json) (k : String) (dflt : Json) : Json :=
  match j with
  | .obj kvs =>
    match kvs.find? (fun kv => kv.1 = k) with
    | some kv => kv.2
    | none => dflt
  | _ => dflt

mutual
/-- Python `repr` of a JSON value (best effort; only scalar `str()` below is
exercised by the claims). -/
def jRepr : Json → String
  | .null => "None"
  | .bool true => "True"
  | .bool false => "False"
  | .num n => toString n
  | .str s => "'" ++ s ++ "'"
  | .arr xs => "[" ++ ", ".intercalate (jReprList xs) ++ "]"
  | .obj _ => "dict"

def jReprList : List Json → List String
  | [] => []
  | x :: xs => jRepr x :: jReprList xs
end

/-- Python `str()` of a JSON value. -/
def pyStr : Json → String
  | .str s => s
  | j => jRepr j

/-- `x or default` restricted to `str`-typed use followed by a string method:
falsy values give the default, a truthy string gives the string, and a truthy
non-string raises (`AttributeError` on the subsequent method call). -/
def jStrOrFalsy (j : Json) (dflt : String) : Except String String :=
  if ! jTruthy j then .ok dflt
  else
    match j with
    | .str s => .ok s
    | _ => .error "AttributeError"

/-- `list(dict.fromkeys(l))`: deduplicate keeping first occurrences. -/
def dedupKeepFirst (l : List String) : List String :=
  l.foldl (fun acc s => if acc.contains s then acc else acc ++ [s]) []

/-- Validated action record (`action_out`, lines 715–723).  `title` and
`type` are strings after validation; `assignee_candidates`, `priority` and
`rationale` are stored as the model produced them. -/
structure VAction where
  type : String
  title : String
  assignee_candidates : Json
  due_raw : Option String
  priority : Json
  tags : List String
  rationale : Json

/-- Validator result (the returned dict, line 725). -/
structure VResult where
  is_action : Bool
  policy_decision : Json
  action : Option VAction

/-- The model-proposed action dict: `result.get("action") or {}` (line 679). -/
def modelActionJ (result : Json) : Json :=
  let a := jGet result "action"
  if jTruthy a then a else .obj []

/-- The model-proposed due phrase after Python's
`(action.get("due_raw") or "").strip() or None` (line 702). -/
def modelDueRaw (result : Json) : Option String :=
  match jGet (modelActionJ result) "due_raw" with
  | .str s => let s' := pyStripS s; if s' = "" then none else some s'
  | _ => none

/-- Type coercion of lines 681–688: uppercase, restrict to the known type
set, then force FOLLOW_UP for self-sent mail. -/
def coerceType (selfSent : Bool) (typeRaw : String) : String :=
  let aType0 := String.mk (upperL typeRaw.toList)
  let aType1 :=
    if aType0 = "DO" ∨ aType0 = "FOLLOW_UP" ∨ aType0 = "NONE"
    then aType0 else "NONE"
  if selfSent then "FOLLOW_UP" else aType1

/-- `_validate_and_fix_action(result, context_text, hints, policy_signals,
user_context)` (lines 664–725).  The `hints` parameter is accepted and unused,
exactly as in the source. -/
def validateAndFixAction (result : Json) (contextText : String)
    (hints : List String) (sig : PolicySignals) (u : UserCtx) :
    Except String VResult :=
  match result with
  | .obj _ =>
    let isAction0 := jTruthy (jGet result "is_action")
    let policy :=
      let p := jGet result "policy_decision"
      if jTruthy p then p else Json.str sig.policy_decision
    let actionJ := modelActionJ result
    (match actionJ with
     | .obj _ => do
        let typeRaw ← jStrOrFalsy (jGet actionJ "type") "NONE"
        let aType := coerceType sig.self_sent typeRaw
        let isAction1 := if sig.self_sent then true else isAction0
        let title0 ← jStrOrFalsy (jGet actionJ "title") ""
        let title1 := pyStripS title0
        let title :=
          if title1.length > 20
          then String.mk (pyRStripL (title1.toList.take 20)) else title1
        let priority :=
          let p := jGet actionJ "priority"
          if jTruthy p then p else Json.str "Medium"
        let tags :=
          let t := jGet actionJ "tags"
          let t := if jTruthy t then t else Json.arr []
          match t with
          | .arr xs => dedupKeepFirst (xs.map pyStr)
          | other => [pyStr other]
        let assignees :=
          let a := jGet actionJ "assignee_candidates"
          if jTruthy a then a else Json.arr []
        let due0 ← jStrOrFalsy (jGet actionJ "due_raw") ""
        let due1 := pyStripS due0
        let dueRaw :=
          match (if due1 = "" then none else some due1) with
          | some d =>
            if aType ≠ "FOLLOW_UP" then
              if isDueForUserS contextText d u then some d else none
            else some d
          | none => none
        if aType = "NONE" then
          pure { is_action := false, policy_decision := policy, action := none }
        else
          pure { is_action := isAction1, policy_decision := policy,
                 action := some
                   { type := aType, title := title,
                     assignee_candidates := assignees, due_raw := dueRaw,
                     priority := priority, tags := tags,
                     rationale := jGetD actionJ "rationale" (Json.str "") } }
     | _ => .error "AttributeError")
  | _ => .ok { is_action := false, policy_decision := Json.str "none", action := none }

/-! ## `_pre_extract_deadlines` (lines 141–174)

The 16 patterns of the source, in priority order, as engine terms.  The
`flags=re.IGNORECASE` of the `finditer` call only affects the ASCII letters of
`EOD|EOW`, rendered with `litCI`. -/

def d12RE : RE := .repCls digit 1 2
def d4RE : RE := .repCls digit 4 4
def d2RE : RE := .repCls digit 2 2

/-- `(?:\([^)]*\))?`. -/
def optParenStar : RE :=
  .opt (.cat [.lit ['('], .starCls (fun c => c ≠ ')'), .lit [')']])

/-- `(월|화|수|목|금|토|일)`. -/
def wdCls : RE :=
  .cls (fun c => c == '월' || c == '화' || c == '수' || c == '목' ||
    c == '금' || c == '토' || c == '일')

/-- `(?:오전|오후)?`. -/
def ampmOpt : RE := .opt (.alt (.lit "오전".toList) (.lit "오후".toList))

/-- `(?:금일|오늘|내일|명일)`. -/
def relDayRE : RE :=
  .alt (.lit "금일".toList)
    (.alt (.lit "오늘".toList) (.alt (.lit "내일".toList) (.lit "명일".toList)))

/-- `\d{1,2}시(?:\s*\d{1,2}분)?` with its optional `(?:오전|오후)?\s*` prefix. -/
def clockRE : RE :=
  .cat [ampmOpt, wsCls, d12RE, .lit ['시'],
    .opt (.cat [wsCls, d12RE, .lit ['분']])]

/-- `YYYY-MM-DD` core: `\d{4}-\d{1,2}-\d{1,2}`. -/
def ymdRE : RE := .cat [d4RE, .lit ['-'], d12RE, .lit ['-'], d12RE]

/-- `MM/DD` core: `\d{1,2}/\d{1,2}`. -/
def mdRE : RE := .cat [d12RE, .lit ['/'], d12RE]

/-- The pattern list of `_pre_extract_deadlines`, in source order. -/
def deadlinePatterns : List RE :=
  [ -- r"\(\s*\d{1,2}/\d{1,2}(?:\([^)]*\))?\s*까지\s*\)"
    .cat [.lit ['('], wsCls, mdRE, optParenStar, wsCls, .lit "까지".toList,
      wsCls, .lit [')']],
    -- r"\d{1,2}/\d{1,2}(?:\([^)]*\))?\s*까지"
    .cat [mdRE, optParenStar, wsCls, .lit "까지".toList],
    -- r"\d{4}-\d{1,2}-\d{1,2}(?:\s*\d{1,2}:\d{2})?\s*까지"
    .cat [ymdRE, .opt (.cat [wsCls, d12RE, .lit [':'], d2RE]), wsCls,
      .lit "까지".toList],
    -- r"(?:이번\s*주|금주)\s*(월|화|수|목|금|토|일)요일?\s*까지"
    .cat [.alt (.cat [.lit "이번".toList, wsCls, .lit ['주']]) (.lit "금주".toList),
      wsCls, wdCls, .lit ['요'], .opt (.lit ['일']), wsCls, .lit "까지".toList],
    -- r"(?:금일|오늘|내일|명일)\s*(?:오전|오후)?\s*\d{1,2}시(?:\s*\d{1,2}분)?\s*까지"
    .cat [relDayRE, wsCls, clockRE, wsCls, .lit "까지".toList],
    -- r"(?:오전|오후)?\s*\d{1,2}시(?:\s*\d{1,2}분)?\s*까지"
    .cat [clockRE, wsCls, .lit "까지".toList],
    -- r"(?:금일|오늘|내일|명일)\s*까지"
    .cat [relDayRE, wsCls, .lit "까지".toList],
    -- r"마감[:\s]*\d{1,2}/\d{1,2}(?:\([^)]*\))?"
    .cat [.lit "마감".toList, .starCls (fun c => c == ':' || isPyWs c), mdRE,
      optParenStar],
    -- r"\b\d{1,2}/\d{1,2}\b(?:\s*\d{1,2}:\d{2})?"
    .cat [.wb, mdRE, .wb, .opt (.cat [wsCls, d12RE, .lit [':'], d2RE])],
    -- r"\d{4}-\d{1,2}-\d{1,2}"
    ymdRE,
    -- r"\d+\s*일\s*(?:후|뒤)"
    .cat [.plusCls digit, wsCls, .lit ['일'], wsCls,
      .alt (.lit ['후']) (.lit ['뒤'])],
    -- r"\b(?:EOD|EOW)\b" (case-insensitive)
    .cat [.wb, .alt (.litCI "EOD".toList) (.litCI "EOW".toList), .wb],
    -- r"(업무\s*(?:종료|시간)\s*전)"
    .cat [.lit "업무".toList, wsCls,
      .alt (.lit "종료".toList) (.lit "시간".toList), wsCls, .lit ['전']],
    -- r"\d{1,2}/\d{1,2}\s*~\s*\d{1,2}/\d{1,2}"
    .cat [mdRE, wsCls, .lit ['~'], wsCls, mdRE],
    -- r"\d{4}-\d{1,2}-\d{1,2}\s*~\s*\d{4}-\d{1,2}-\d{1,2}"
    .cat [ymdRE, wsCls, .lit ['~'], wsCls, ymdRE],
    -- r"(이번\s*주\s*내|주중|이번\s*달\s*내|월말\s*까지|분기\s*말\s*까지)"
    .alt (.cat [.lit "이번".toList, wsCls, .lit ['주'], wsCls, .lit ['내']])
      (.alt (.lit "주중".toList)
        (.alt (.cat [.lit "이번".toList, wsCls, .lit ['달'], wsCls, .lit ['내']])
          (.alt (.cat [.lit "월말".toList, wsCls, .lit "까지".toList])
            (.cat [.lit "분기".toList, wsCls, .lit ['말'], wsCls,
              .lit "까지".toList])))) ]

/-- The inner accumulation of `_pre_extract_deadlines`: walk the stripped
matches (pattern-major order), append unseen ones, stop as soon as
`max_items` entries are collected.  This linearises the source's two nested
loops with their early `return`. -/
def peRun (maxItems : Nat) : List (List Char) → List (List Char) → List (List Char)
  | found, [] => found
  | found, s :: rest =>
    if found.contains s then peRun maxItems found rest
    else
      let f := found ++ [s]
      if maxItems ≤ f.length then f else peRun maxItems f rest

/-- `_pre_extract_deadlines(text, max_items)` (lines 141–174). -/
def preExtractDeadlines (text : List Char) (maxItems : Nat) : List (List Char) :=
  peRun maxItems []
    ((deadlinePatterns.flatMap (fun p => reFindAll p text)).map pyStripL)

/-- `_collect_deadline_hints_from_text` (lines 180–181). -/
def collectDeadlineHintsFromText (text : String) : List String :=
  (preExtractDeadlines text.toList 10).map String.mk

/-- `_collect_deadline_hints` (lines 176–178): subject and body joined by a
blank line, stripped. -/
def collectDeadlineHints (subject body : String) : List String :=
  (preExtractDeadlines (pyStripL (subject ++ "\n\n" ++ body).toList) 10).map
    String.mk

/-! ## `extract_actions_with_llm` (lines 730–836)

The completion client is an oracle: `llmSeg i` is the parsed JSON of the call
made for segment `i` (`none` models a transport error, a malformed response
with no parsable JSON object, or any other exception of that loop body —
every one is caught identically at line 793), and `llmFull` the same for the
single full-body fallback call. -/

structure StdEmail where
  subject : String
  body : String
deriving DecidableEq, Repr

/-- `result.get("is_action") and result.get("action")` (line 789) on the
validated dict: the action sub-dict is non-empty whenever present, so
truthiness is `isSome`. -/
def qualifies (r : VResult) : Bool := r.is_action && r.action.isSome

/-- One iteration of the segment loop (lines 755–794): LLM call, validation
(`_postfix`, context = subject, blank line, segment text), qualification. -/
def tryOneSegment (llmSeg : Nat → Option Json) (subject : String)
    (sig : PolicySignals) (u : UserCtx) (idx : Nat) (segText : List Char) :
    Option VResult :=
  match llmSeg idx with
  | none => none
  | some j =>
    match validateAndFixAction j (subject ++ "\n\n" ++ String.mk segText)
        (collectDeadlineHintsFromText (String.mk segText)) sig u with
    | .error _ => none
    | .ok r => if qualifies r then some r else none

/-- The segment loop: first qualifying segment wins. -/
def segLoop (llmSeg : Nat → Option Json) (subject : String)
    (sig : PolicySignals) (u : UserCtx) :
    Nat → List (Nat × Nat × List Char) → Option VResult
  | _, [] => none
  | idx, s :: rest =>
    match tryOneSegment llmSeg subject sig u idx s.2.2 with
    | some r => some r
    | none => segLoop llmSeg subject sig u (idx + 1) rest

/-- The no-action result dicts of lines 829 and 832–836. -/
def noActionNone : VResult :=
  { is_action := false, policy_decision := Json.str "none", action := none }

def noActionWithPolicy (sig : PolicySignals) : VResult :=
  { is_action := false, policy_decision := Json.str sig.policy_decision,
    action := none }

/-- `extract_actions_with_llm(email_data, policy_signals, user_context)`
(lines 730–836).  The second component records whether the full-body fallback
call was made (`tried_any` is false). -/
def extractActionsWithLlm (llmSeg : Nat → Option Json) (llmFull : Option Json)
    (email : StdEmail) (sig : PolicySignals) (u : UserCtx) : VResult × Bool :=
  let segs := getSelfMentionSegments email.body u
  match segLoop llmSeg email.subject sig u 0 segs with
  | some r => (r, false)
  | none =>
    if segs.isEmpty then
      let fullCtx := email.subject ++ "\n\n" ++ email.body
      let hints := collectDeadlineHints email.subject email.body
      match llmFull with
      | none => (noActionNone, true)
      | some j =>
        match validateAndFixAction j fullCtx hints sig u with
        | .error _ => (noActionNone, true)
        | .ok r => (r, true)
    else (noActionWithPolicy sig, false)

/-- Specification-side restatement of the extraction strategy (for the
amended C1): the outcome is the first qualifying segment attempt; with no
qualifying attempt, the full-body fallback runs exactly when the segment list
is empty, and otherwise the result is "no action" with the signals' policy. -/
def extractActionsSpec (llmSeg : Nat → Option Json) (llmFull : Option Json)
    (email : StdEmail) (sig : PolicySignals) (u : UserCtx) : VResult × Bool :=
  let segs := getSelfMentionSegments email.body u
  let outcomes :=
    segs.mapIdx (fun i s => tryOneSegment llmSeg email.subject sig u i s.2.2)
  match outcomes.findSome? id with
  | some r => (r, false)
  | none =>
    if segs.isEmpty then
      (match llmFull with
       | none => noActionNone
       | some j =>
         match validateAndFixAction j (email.subject ++ "\n\n" ++ email.body)
             (collectDeadlineHints email.subject email.body) sig u with
         | .error _ => noActionNone
         | .ok r => r, true)
    else (noActionWithPolicy sig, false)

/-! ## Calendar arithmetic (proleptic Gregorian, as Python `datetime`) -/

/-- Days since 1970-01-01 of a civil date (Hinnant's `days_from_civil`). -/
def daysFromCivil (y m d : Int) : Int :=
  let yy := if m ≤ 2 then y - 1 else y
  let era := (if 0 ≤ yy then yy else yy - 399).tdiv 400
  let yoe := yy - era * 400
  let mp := (m + 9).emod 12
  let doy := (153 * mp + 2).tdiv 5 + d - 1
  let doe := yoe * 365 + yoe.tdiv 4 - yoe.tdiv 100 + doy
  era * 146097 + doe - 719468

/-- Civil date of a day count since 1970-01-01 (Hinnant's `civil_from_days`). -/
def civilFromDays (z0 : Int) : Int × Int × Int :=
  let z := z0 + 719468
  let era := (if 0 ≤ z then z else z - 146096).tdiv 146097
  let doe := z - era * 146097
  let yoe := (doe - doe.tdiv 1460 + doe.tdiv 36524 - doe.tdiv 146096).tdiv 365
  let y := yoe + era * 400
  let doy := doe - (365 * yoe + yoe.tdiv 4 - yoe.tdiv 100)
  let mp := (5 * doy + 2).tdiv 153
  let d := doy - (153 * mp + 2).tdiv 5 + 1
  let m := if mp < 10 then mp + 3 else mp - 9
  (if m ≤ 2 then y + 1 else y, m, d)

structure KDate where
  y : Int
  m : Int
  d : Int
deriving DecidableEq, Repr

/-- Python `date.weekday()`: Monday = 0 (1970-01-01 was a Thursday). -/
def KDate.weekday (dt : KDate) : Int :=
  (daysFromCivil dt.y dt.m dt.d + 3).emod 7

/-- `date + timedelta(days=n)`. -/
def KDate.addDays (dt : KDate) (n : Int) : KDate :=
  let c := civilFromDays (daysFromCivil dt.y dt.m dt.d + n)
  ⟨c.1, c.2.1, c.2.2⟩

/-- A timezone-aware KST wall-clock instant (date, hour, minute). -/
structure KDT where
  date : KDate
  hh : Nat
  mi : Nat
deriving DecidableEq, Repr

/-- Minutes since the epoch of a KST instant, in UTC (KST = UTC+9). -/
def KDT.utcEpochMinutes (t : KDT) : Int :=
  daysFromCivil t.date.y t.date.m t.date.d * 1440 + t.hh * 60 + t.mi - 540

/-- Minutes since the epoch read as a UTC instant. -/
def kdtOfUtcMinutes (mins : Int) : KDT :=
  let days := mins.fdiv 1440
  let rem := (mins.emod 1440).toNat
  let c := civilFromDays days
  ⟨⟨c.1, c.2.1, c.2.2⟩, rem / 60, rem % 60⟩

def pad2 (n : Nat) : String := if n < 10 then "0" ++ toString n else toString n

def pad4 (n : Nat) : String :=
  if n < 10 then "000" ++ toString n
  else if n < 100 then "00" ++ toString n
  else if n < 1000 then "0" ++ toString n
  else toString n

/-- `due_kst.strftime("%Y-%m-%d %H:%M KST")` (line 1027). -/
def fmtKst (t : KDT) : String :=
  pad4 t.date.y.toNat ++ "-" ++ pad2 t.date.m.toNat ++ "-" ++
    pad2 t.date.d.toNat ++ " " ++ pad2 t.hh ++ ":" ++ pad2 t.mi ++ " KST"

/-- `due_kst.astimezone(timezone.utc).isoformat()` (line 1026): seconds are
zero, so the suffix is `+00:00`. -/
def fmtUtcIso (t : KDT) : String :=
  let u := kdtOfUtcMinutes t.utcEpochMinutes
  pad4 u.date.y.toNat ++ "-" ++ pad2 u.date.m.toNat ++ "-" ++
    pad2 u.date.d.toNat ++ "T" ++ pad2 u.hh ++ ":" ++ pad2 u.mi ++
    ":00+00:00"

/-- Day count of each month, as validated by Python's `datetime(y, m, d)`. -/
def daysInMonth (y m : Int) : Int :=
  if m = 2 then
    if y.emod 4 = 0 ∧ (y.emod 100 ≠ 0 ∨ y.emod 400 = 0) then 29 else 28
  else if m = 4 ∨ m = 6 ∨ m = 9 ∨ m = 11 then 30
  else 31

def validYmd (y m d : Int) : Bool :=
  1 ≤ m && m ≤ 12 && 1 ≤ d && d ≤ daysInMonth y m

/-! ## Scanners for the resolver's capture-group regexes

These are the resolver's `re.search` patterns hand-compiled to leftmost
scanners that also return the capture groups (the engine above returns only
whole matches). -/

/-- One or two digits followed by a given literal character, greedy
(`\d{1,2}X` with backtracking from two digits to one). -/
def twoDigitsThen (stop : Char) : List Char → Option (Nat × List Char)
  | a :: b :: c :: rest =>
    if a.isDigit && b.isDigit && c = stop then
      some (a.toNat * 10 + b.toNat - 528, rest)
    else if a.isDigit && b = stop then some (a.toNat - 48, c :: rest)
    else none
  | a :: b :: rest =>
    if a.isDigit && b = stop then some (a.toNat - 48, rest) else none
  | _ => none

/-- Attempt `(오전|오후)?\s*(\d{1,2})시(?:\s*(\d{1,2})분)?` at the current
position.  When the optional am/pm prefix matches but the rest fails, the
prefix-less alternative also fails (the next character is neither space nor
digit), so no further backtracking is needed. -/
def clockAt (cs : List Char) : Option (Option Bool × Nat × Option Nat) :=
  let (ampm, cs1) :=
    if "오전".toList.isPrefixOf cs then (some false, cs.drop 2)
    else if "오후".toList.isPrefixOf cs then (some true, cs.drop 2)
    else (none, cs)
  let cs2 := cs1.dropWhile isPyWs
  match twoDigitsThen '시' cs2 with
  | none => none
  | some (hh, cs3) =>
    let cs4 := cs3.dropWhile isPyWs
    match twoDigitsThen '분' cs4 with
    | some (mm, _) => some (ampm, hh, some mm)
    | none => some (ampm, hh, none)

/-- `re.search` of the clock pattern (line 928): leftmost position wins. -/
def clockSearch : List Char → Option (Option Bool × Nat × Option Nat)
  | [] => none
  | c :: cs =>
    match clockAt (c :: cs) with
    | some r => some r
    | none => clockSearch cs

/-- `(월|화|수|목|금|토|일)` lookup (`wd_map`, line 938). -/
def wdMap (c : Char) : Option Nat :=
  if c = '월' then some 0 else if c = '화' then some 1
  else if c = '수' then some 2 else if c = '목' then some 3
  else if c = '금' then some 4 else if c = '토' then some 5
  else if c = '일' then some 6 else none

/-- After the week prefix: `\s*(월|…|일)요일?\s*까지?` (the final `지` is
optional).  Returns the weekday group. -/
def weekTail (cs : List Char) : Option Nat := do
  let cs1 := cs.dropWhile isPyWs
  match cs1 with
  | w :: '요' :: rest =>
    let wd ← wdMap w
    let rest1 := if rest.head? = some '일' then rest.drop 1 else rest
    let rest2 := rest1.dropWhile isPyWs
    match rest2 with
    | '까' :: _ => some wd
    | _ => none
  | _ => none

/-- `(?:이번\s*주|금주)` at the current position; returns the rest. -/
def thisWeekHead (cs : List Char) : Option (List Char) :=
  if "이번".toList.isPrefixOf cs then
    let cs1 := (cs.drop 2).dropWhile isPyWs
    if cs1.head? = some '주' then some (cs1.drop 1) else none
  else if "금주".toList.isPrefixOf cs then some (cs.drop 2)
  else none

/-- `(?:다음\s*주|차주)` at the current position; returns the rest. -/
def nextWeekHead (cs : List Char) : Option (List Char) :=
  if "다음".toList.isPrefixOf cs then
    let cs1 := (cs.drop 2).dropWhile isPyWs
    if cs1.head? = some '주' then some (cs1.drop 1) else none
  else if "차주".toList.isPrefixOf cs then some (cs.drop 2)
  else none

/-- `re.search(r"(?:이번\s*주|금주)\s*(월|…|일)요일?\s*까지?", text)` (line 951). -/
def thisWeekSearch : List Char → Option Nat
  | [] => none
  | c :: cs =>
    match thisWeekHead (c :: cs) >>= weekTail with
    | some wd => some wd
    | none => thisWeekSearch cs

/-- `re.search(r"(?:다음\s*주|차주)\s*(월|…|일)요일?\s*까지?", text)` (line 961). -/
def nextWeekSearch : List Char → Option Nat
  | [] => none
  | c :: cs =>
    match nextWeekHead (c :: cs) >>= weekTail with
    | some wd => some wd
    | none => nextWeekSearch cs

/-- `re.search(r"\bEOD\b", text, re.IGNORECASE)` via the engine. -/
def eodRE : RE := .cat [.wb, .litCI "EOD".toList, .wb]

def eowRE : RE := .cat [.wb, .litCI "EOW".toList, .wb]

/-- Greedy `\d{1,2}` not followed by another digit requirement: take two
digits if available else one (final group of the date patterns). -/
def grabD12 : List Char → Option (Nat × List Char)
  | a :: b :: rest =>
    if a.isDigit && b.isDigit then some (a.toNat * 10 + b.toNat - 528, rest)
    else if a.isDigit then some (a.toNat - 48, b :: rest)
    else none
  | [a] => if a.isDigit then some (a.toNat - 48, []) else none
  | [] => none

/-- `(\d{4})-(\d{1,2})-(\d{1,2})` at the current position. -/
def ymdAt (cs : List Char) : Option (Int × Int × Int) :=
  match cs with
  | a :: b :: c :: d :: '-' :: rest =>
    if a.isDigit && b.isDigit && c.isDigit && d.isDigit then
      let y : Int := ((a.toNat * 10 + b.toNat) * 10 + c.toNat) * 10 + d.toNat - 53328
      match twoDigitsThen '-' rest with
      | some (mo, rest2) =>
        match grabD12 rest2 with
        | some (dd, _) => some (y, mo, dd)
        | none => none
      | none => none
    else none
  | _ => none

/-- `re.search(r"(\d{4})-(\d{1,2})-(\d{1,2})", text)` (line 984). -/
def ymdSearch : List Char → Option (Int × Int × Int)
  | [] => none
  | c :: cs =>
    match ymdAt (c :: cs) with
    | some r => some r
    | none => ymdSearch cs

/-- `\b(\d{1,2})/(\d{1,2})\b` at the current position (`prev` is the
preceding character for the word boundaries). -/
def mdAt (prev : Option Char) (cs : List Char) : Option (Int × Int) :=
  let boundaryOk := match prev with | some c => ! isPyWord c | none => true
  if ! boundaryOk then none
  else
    match twoDigitsThen '/' cs with
    | none => none
    | some (mo, rest) =>
      -- `(\d{1,2})\b`: prefer two digits, fall back to one, then require
      -- a non-word character (or end) after the match
      match rest with
      | a :: b :: c :: tl =>
        if a.isDigit && b.isDigit && ! isPyWord c then
          some (mo, a.toNat * 10 + b.toNat - 528)
        else if a.isDigit && ! isPyWord b then some (mo, a.toNat - 48)
        else none
      | [a, b] =>
        if a.isDigit && b.isDigit then some (mo, a.toNat * 10 + b.toNat - 528)
        else if a.isDigit && ! isPyWord b then some (mo, a.toNat - 48)
        else none
      | [a] => if a.isDigit then some (mo, a.toNat - 48) else none
      | [] => none

/-- `re.search(r"\b(\d{1,2})/(\d{1,2})\b", text)` (line 991). -/
def mdSearchAux : Option Char → List Char → Option (Int × Int)
  | _, [] => none
  | prev, c :: cs =>
    match mdAt prev (c :: cs) with
    | some r => some r
    | none => mdSearchAux (some c) cs

def mdSearch (cs : List Char) : Option (Int × Int) := mdSearchAux none cs

/-- `(\d+)\s*일\s*(?:후|뒤)` at the current position. -/
def nDaysAt (cs : List Char) : Option Nat :=
  let ds := cs.takeWhile Char.isDigit
  if ds.isEmpty then none
  else
    let n := ds.foldl (fun acc c => acc * 10 + (c.toNat - 48)) 0
    let rest := (cs.drop ds.length).dropWhile isPyWs
    match rest with
    | '일' :: tl =>
      let tl1 := tl.dropWhile isPyWs
      match tl1 with
      | '후' :: _ => some n
      | '뒤' :: _ => some n
      | _ => none
    | _ => none

/-- `re.search(r"(\d+)\s*일\s*(?:후|뒤)", text)` (line 999). -/
def nDaysSearch : List Char → Option Nat
  | [] => none
  | c :: cs =>
    match nDaysAt (c :: cs) with
    | some r => some r
    | none => nDaysSearch cs

/-! ## `_resolve_relative_deadline` (lines 897–1028)

The received-at string is parsed by `dateutil` and converted to KST; that
plumbing is modelled by passing the reference instant `nowKst` directly.
`parser.parse(text, fuzzy=True)` (an external library) is the oracle `fuzzy`
(its result already converted to KST wall clock), and `_llm_resolve_deadline`
(lines 841–895, an external completion call plus a shape check) is the oracle
`llmFix`.  Python exceptions (`datetime`/`dt_time` constructor errors on
out-of-range fields, line 987/995/1025) are `Except.error`. -/

def resolveRelativeDeadline (fuzzy : String → Option KDT)
    (llmFix : String → Option String × Option String)
    (dueRaw : String) (nowKst : KDT) :
    Except String (Option String × Option String) :=
  if dueRaw = "" then .ok (none, none)
  else
    let textL := pyStripL dueRaw.toList
    -- default 18:00, overridden by the clock pattern (lines 923–936)
    let (hour0, minute0) :=
      match clockSearch textL with
      | none => (18, 0)
      | some (ampm, hh, mm) =>
        let h1 := if ampm = some true ∧ hh < 12 then hh + 12 else hh
        let h2 := if ampm = some false ∧ h1 = 12 then 0 else h1
        (h2, mm.getD 0)
    -- 오늘/금일, 내일/명일, 모레 (lines 941–947)
    let td1 : Option KDate :=
      if containsSub textL "금일".toList || containsSub textL "오늘".toList then
        some nowKst.date
      else if containsSub textL "명일".toList || containsSub textL "내일".toList
      then some (nowKst.date.addDays 1)
      else if containsSub textL "모레".toList then some (nowKst.date.addDays 2)
      else none
    -- 이번 주 X요일 (lines 949–957)
    let td2 : Option KDate :=
      match td1 with
      | some d => some d
      | none =>
        (thisWeekSearch textL).map (fun wd =>
          nowKst.date.addDays (((wd : Int) - nowKst.date.weekday).emod 7))
    -- 다음 주 X요일 (lines 959–970)
    let td3 : Option KDate :=
      match td2 with
      | some d => some d
      | none =>
        (nextWeekSearch textL).map (fun wd =>
          ((nowKst.date.addDays ((0 - nowKst.date.weekday).emod 7)).addDays
            7).addDays wd)
    -- EOD / EOW force 18:00 (lines 972–980)
    let (td4, hour1, minute1) :=
      match td3 with
      | some d => (some d, hour0, minute0)
      | none =>
        if (reSearch eodRE textL).isSome then (some nowKst.date, 18, 0)
        else if (reSearch eowRE textL).isSome then
          (some (nowKst.date.addDays ((4 - nowKst.date.weekday).emod 7)), 18, 0)
        else (none, hour0, minute0)
    -- the remaining rule-based branches build `Except` because the
    -- `datetime` constructor can raise on out-of-range components
    match td4 with
    | some d =>
      if hour1 ≤ 23 ∧ minute1 ≤ 59 then
        let t : KDT := ⟨d, hour1, minute1⟩
        .ok (some (fmtKst t), some (fmtUtcIso t))
      else .error "ValueError"
    | none =>
      -- YYYY-MM-DD (lines 982–987)
      match ymdSearch textL with
      | some (y, mo, dd) =>
        if validYmd y mo dd then
          if hour1 ≤ 23 ∧ minute1 ≤ 59 then
            let t : KDT := ⟨⟨y, mo, dd⟩, hour1, minute1⟩
            .ok (some (fmtKst t), some (fmtUtcIso t))
          else .error "ValueError"
        else .error "ValueError"
      | none =>
        -- MM/DD with year rollover (lines 989–995)
        match mdSearch textL with
        | some (mo, dd) =>
          let y := if mo ≥ nowKst.date.m then nowKst.date.y
            else nowKst.date.y + 1
          if validYmd y mo dd then
            if hour1 ≤ 23 ∧ minute1 ≤ 59 then
              let t : KDT := ⟨⟨y, mo, dd⟩, hour1, minute1⟩
              .ok (some (fmtKst t), some (fmtUtcIso t))
            else .error "ValueError"
          else .error "ValueError"
        | none =>
          -- N일 후/뒤 (lines 997–1002)
          match nDaysSearch textL with
          | some n =>
            if hour1 ≤ 23 ∧ minute1 ≤ 59 then
              let t : KDT := ⟨nowKst.date.addDays n, hour1, minute1⟩
              .ok (some (fmtKst t), some (fmtUtcIso t))
            else .error "ValueError"
          | none =>
            -- dateutil fuzzy parse (lines 1004–1017); `parsed.hour or hour`
            -- keeps the default when the parsed hour is 0
            match fuzzy (String.mk textL) with
            | some p =>
              let h := if p.hh ≠ 0 then p.hh else hour1
              let mi := if p.mi ≠ 0 then p.mi else minute1
              if h ≤ 23 ∧ mi ≤ 59 then
                let t : KDT := ⟨p.date, h, mi⟩
                .ok (some (fmtKst t), some (fmtUtcIso t))
              else .error "ValueError"
            | none =>
              -- LLM correction (lines 1019–1023)
              .ok (llmFix (String.mk textL))

/-! ## `hashlib.md5` (stdlib, used by `_sanitize_document_key`)

A faithful MD5 over `Nat` with explicit reduction mod `2^32`. -/

def m32 (n : Nat) : Nat := n % 4294967296

def wAdd (a b : Nat) : Nat := m32 (a + b)

/-- Bitwise complement on 32-bit values. -/
def wNot (a : Nat) : Nat := 4294967295 - m32 a

/-- 32-bit left rotation. -/
def wRotl (x n : Nat) : Nat :=
  m32 (x * 2 ^ n) ||| (m32 x / 2 ^ (32 - n))

def md5F (b c d : Nat) : Nat := (b &&& c) ||| (wNot b &&& d)
def md5G (b c d : Nat) : Nat := (d &&& b) ||| (wNot d &&& c)
def md5H (b c d : Nat) : Nat := b ^^^ c ^^^ d
def md5I (b c d : Nat) : Nat := c ^^^ (b ||| wNot d)

/-- Per-round shift amounts. -/
def md5S : List Nat :=
  [7, 12, 17, 22, 7, 12, 17, 22, 7, 12, 17, 22, 7, 12, 17, 22,
   5, 9, 14, 20, 5, 9, 14, 20, 5, 9, 14, 20, 5, 9, 14, 20,
   4, 11, 16, 23, 4, 11, 16, 23, 4, 11, 16, 23, 4, 11, 16, 23,
   6, 10, 15, 21, 6, 10, 15, 21, 6, 10, 15, 21, 6, 10, 15, 21]

/-- The 64 sine-derived constants. -/
def md5K : List Nat :=
  [0xd76aa478, 0xe8c7b756, 0x242070db, 0xc1bdceee,
   0xf57c0faf, 0x4787c62a, 0xa8304613, 0xfd469501,
   0x698098d8, 0x8b44f7af, 0xffff5bb1, 0x895cd7be,
   0x6b901122, 0xfd987193, 0xa679438e, 0x49b40821,
   0xf61e2562, 0xc040b340, 0x265e5a51, 0xe9b6c7aa,
   0xd62f105d, 0x02441453, 0xd8a1e681, 0xe7d3fbc8,
   0x21e1cde6, 0xc33707d6, 0xf4d50d87, 0x455a14ed,
   0xa9e3e905, 0xfcefa3f8, 0x676f02d9, 0x8d2a4c8a,
   0xfffa3942, 0x8771f681, 0x6d9d6122, 0xfde5380c,
   0xa4beea44, 0x4bdecfa9, 0xf6bb4b60, 0xbebfbc70,
   0x289b7ec6, 0xeaa127fa, 0xd4ef3085, 0x04881d05,
   0xd9d4d039, 0xe6db99e5, 0x1fa27cf8, 0xc4ac5665,
   0xf4292244, 0x432aff97, 0xab9423a7, 0xfc93a039,
   0x655b59c3, 0x8f0ccc92, 0xffeff47d, 0x85845dd1,
   0x6fa87e4f, 0xfe2ce6e0, 0xa3014314, 0x4e0811a1,
   0xf7537e82, 0xbd3af235, 0x2ad7d2bb, 0xeb86d391]

/-- UTF-8 bytes of a character (`str.encode()`). -/
def utf8Bytes (c : Char) : List Nat :=
  let n := c.toNat
  if n < 0x80 then [n]
  else if n < 0x800 then [0xC0 + n / 64, 0x80 + n % 64]
  else if n < 0x10000 then
    [0xE0 + n / 4096, 0x80 + n / 64 % 64, 0x80 + n % 64]
  else
    [0xF0 + n / 262144, 0x80 + n / 4096 % 64, 0x80 + n / 64 % 64,
     0x80 + n % 64]

def strUtf8 (s : String) : List Nat := s.toList.flatMap utf8Bytes

def le4 (n : Nat) : List Nat :=
  [n % 256, n / 256 % 256, n / 65536 % 256, n / 16777216 % 256]

def le8 (n : Nat) : List Nat := le4 (n % 4294967296) ++ le4 (n / 4294967296)

/-- MD5 padding: `0x80`, zeros to 56 mod 64, 8-byte little-endian bit length. -/
def md5Pad (msg : List Nat) : List Nat :=
  let ml := msg.length
  let z := (120 - (ml + 1) % 64) % 64
  msg ++ [0x80] ++ List.replicate z 0 ++ le8 (ml * 8 % 18446744073709551616)

/-- Split into 64-byte chunks (fuelled for structural termination; each step
consumes 64 bytes, so the byte count suffices as fuel). -/
def chunks64Aux : Nat → List Nat → List (List Nat)
  | _, [] => []
  | 0, _ :: _ => []
  | fuel + 1, b :: rest => ((b :: rest).take 64) :: chunks64Aux fuel ((b :: rest).drop 64)

def chunks64 (l : List Nat) : List (List Nat) := chunks64Aux l.length l

/-- Little-endian 32-bit words of a chunk. -/
def toWords : List Nat → List Nat
  | b0 :: b1 :: b2 :: b3 :: rest =>
    (b0 + b1 * 256 + b2 * 65536 + b3 * 16777216) :: toWords rest
  | _ => []

/-- One of the 64 MD5 rounds. -/
def md5Step (M : Nat → Nat) (st : Nat × Nat × Nat × Nat) (i : Nat) :
    Nat × Nat × Nat × Nat :=
  let a := st.1; let b := st.2.1; let c := st.2.2.1; let d := st.2.2.2
  let fg :=
    if i < 16 then (md5F b c d, i)
    else if i < 32 then (md5G b c d, (5 * i + 1) % 16)
    else if i < 48 then (md5H b c d, (3 * i + 5) % 16)
    else (md5I b c d, (7 * i) % 16)
  let f2 := wAdd (wAdd (wAdd fg.1 a) (md5K.getD i 0)) (M fg.2)
  (d, wAdd b (wRotl f2 (md5S.getD i 0)), b, c)

/-- Process one 64-byte chunk. -/
def md5Chunk (st : Nat × Nat × Nat × Nat) (chunk : List Nat) :
    Nat × Nat × Nat × Nat :=
  let ws := toWords chunk
  let r := (List.range 64).foldl (md5Step (fun g => ws.getD g 0)) st
  (wAdd st.1 r.1, wAdd st.2.1 r.2.1, wAdd st.2.2.1 r.2.2.1,
   wAdd st.2.2.2 r.2.2.2)

/-- The 16 digest bytes of `hashlib.md5(s.encode())`. -/
def md5Digest (s : String) : List Nat :=
  let st := (chunks64 (md5Pad (strUtf8 s))).foldl md5Chunk
    (0x67452301, 0xefcdab89, 0x98badcfe, 0x10325476)
  le4 st.1 ++ le4 st.2.1 ++ le4 st.2.2.1 ++ le4 st.2.2.2

def hexDigits : List Char := "0123456789abcdef".toList

def hexDigitCh (n : Nat) : Char := hexDigits.getD (n % 16) '0'

def byteHex (b : Nat) : List Char := [hexDigitCh (b / 16), hexDigitCh b]

/-- `hashlib.md5(key.encode()).hexdigest()`. -/
def md5Hex (s : String) : List Char := (md5Digest s).flatMap byteHex

/-! ## `_sanitize_document_key` (lines 1336–1344) -/

/-- The character class `[a-zA-Z0-9_\-=]`. -/
def allowedKeyChar (c : Char) : Bool :=
  ('a' ≤ c && c ≤ 'z') || ('A' ≤ c && c ≤ 'Z') || c.isDigit ||
    c == '_' || c == '-' || c == '='

/-- `re.sub(r"[^a-zA-Z0-9_\-=]", "_", key)`. -/
def replaceDisallowed (l : List Char) : List Char :=
  l.map (fun c => if allowedKeyChar c then c else '_')

/-- `re.sub(r"_+", "_", s)`: collapse runs of underscores. -/
def collapseU : List Char → List Char
  | [] => []
  | [c] => [c]
  | a :: b :: rest =>
    if a = '_' ∧ b = '_' then collapseU (b :: rest)
    else a :: collapseU (b :: rest)

/-- `s.strip("_")`. -/
def stripU (l : List Char) : List Char :=
  ((l.dropWhile (fun c => c == '_')).reverse.dropWhile
    (fun c => c == '_')).reverse

/-- Replacement, collapse and strip — everything before the length check. -/
def sanitizeCore (l : List Char) : List Char :=
  stripU (collapseU (replaceDisallowed l))

/-- `_sanitize_document_key(key)` (lines 1336–1344). -/
def sanitizeDocumentKey (key : String) : String :=
  let s := sanitizeCore key.toList
  if s.length > 1000 then
    String.mk (s.take 992 ++ '_' :: (md5Hex key).take 8)
  else String.mk s

/-! # Theorems

## Sanitizer helper lemmas (C9) -/

/-- The underscore-run relation: no two adjacent underscores. -/
def NoUU (l : List Char) : Prop :=
  List.Chain' (fun a b => ¬(a = '_' ∧ b = '_')) l

theorem mem_replaceDisallowed {c : Char} {l : List Char}
    (h : c ∈ replaceDisallowed l) : allowedKeyChar c = true := by
  rcases List.mem_map.mp h with ⟨x, _, hx⟩
  by_cases hal : allowedKeyChar x = true
  · rw [if_pos hal] at hx; subst hx; exact hal
  · rw [if_neg hal] at hx; subst hx; decide

theorem replaceDisallowed_eq_self {l : List Char}
    (h : ∀ c ∈ l, allowedKeyChar c = true) : replaceDisallowed l = l := by
  induction l with
  | nil => rfl
  | cons a t ih =>
    unfold replaceDisallowed
    simp only [List.map_cons]
    rw [if_pos (h a (List.mem_cons_self a t))]
    have := ih (fun c hc => h c (List.mem_cons_of_mem a hc))
    unfold replaceDisallowed at this
    rw [this]

theorem mem_collapseU {c : Char} : ∀ (l : List Char), c ∈ collapseU l → c ∈ l := by
  intro l
  induction l with
  | nil => simp [collapseU]
  | cons a t ih =>
    cases t with
    | nil => simp [collapseU]
    | cons b r =>
      unfold collapseU
      split_ifs with h
      · intro hm; exact List.mem_cons_of_mem a (ih hm)
      · intro hm
        rcases List.mem_cons.mp hm with rfl | hm2
        · exact List.mem_cons_self _ _
        · exact List.mem_cons_of_mem a (ih hm2)

theorem collapseU_head? : ∀ (l : List Char), (collapseU l).head? = l.head? := by
  intro l
  induction l with
  | nil => rfl
  | cons a t ih =>
    cases t with
    | nil => rfl
    | cons b r =>
      unfold collapseU
      split_ifs with h
      · rw [ih]; simp [h.1, h.2]
      · rfl

theorem chain'_collapseU : ∀ (l : List Char), NoUU (collapseU l) := by
  intro l
  induction l with
  | nil => simp [collapseU, NoUU]
  | cons a t ih =>
    cases t with
    | nil => simp [collapseU, NoUU]
    | cons b r =>
      unfold collapseU
      split_ifs with h
      · exact ih
      · refine List.chain'_cons'.mpr ⟨?_, ih⟩
        intro y hy
        rw [collapseU_head?] at hy
        simp only [List.head?_cons, Option.mem_def, Option.some.injEq] at hy
        subst hy
        exact h

theorem collapseU_eq_self : ∀ {l : List Char}, NoUU l → collapseU l = l := by
  intro l
  induction l with
  | nil => intro _; rfl
  | cons a t ih =>
    cases t with
    | nil => intro _; rfl
    | cons b r =>
      intro hc
      obtain ⟨hr, htail⟩ := List.chain'_cons'.mp hc
      unfold collapseU
      rw [if_neg (hr b rfl)]
      rw [ih htail]

theorem chain'_dropWhile {R : Char → Char → Prop} {p : Char → Bool} :
    ∀ {l : List Char}, List.Chain' R l → List.Chain' R (l.dropWhile p) := by
  intro l
  induction l with
  | nil => intro h; simpa using h
  | cons a t ih =>
    intro h
    rw [List.dropWhile_cons]
    split_ifs
    · exact ih h.tail
    · exact h

theorem noUU_reverse {l : List Char} (h : NoUU l) : NoUU l.reverse := by
  unfold NoUU at h ⊢
  rw [List.chain'_reverse]
  exact h.imp (fun a b hab => by
    simp only [flip]
    exact fun hc => hab ⟨hc.2, hc.1⟩)

theorem noUU_stripU {l : List Char} (h : NoUU l) : NoUU (stripU l) := by
  unfold stripU
  exact noUU_reverse (chain'_dropWhile (noUU_reverse (chain'_dropWhile h)))

theorem dropWhile_und_head {l : List Char} {c : Char}
    (h : (l.dropWhile (fun c => c == '_')).head? = some c) : c ≠ '_' := by
  induction l with
  | nil => simp at h
  | cons a t ih =>
    rw [List.dropWhile_cons] at h
    split_ifs at h with ha
    · exact ih h
    · simp only [List.head?_cons, Option.some.injEq] at h
      subst h
      simpa using ha

theorem dropWhile_und_suffix (p : Char → Bool) :
    ∀ (l : List Char), l.dropWhile p <:+ l := by
  intro l
  induction l with
  | nil => simp
  | cons a t ih =>
    rw [List.dropWhile_cons]
    split_ifs
    · exact ih.trans (List.suffix_cons a t)
    · exact List.suffix_refl _

theorem getLast?_of_suffix {l s : List Char} (h : s <:+ l) (hne : s ≠ []) :
    s.getLast? = l.getLast? := by
  obtain ⟨pre, rfl⟩ := h
  exact (List.getLast?_append_of_ne_nil pre hne).symm

theorem stripU_getLast_ne {l : List Char} {c : Char}
    (h : (stripU l).getLast? = some c) : c ≠ '_' := by
  unfold stripU at h
  rw [List.getLast?_reverse] at h
  exact dropWhile_und_head h

theorem stripU_head_ne {l : List Char} {c : Char}
    (h : (stripU l).head? = some c) : c ≠ '_' := by
  unfold stripU at h
  rw [List.head?_reverse] at h
  have hs := dropWhile_und_suffix (fun c => c == '_')
    ((l.dropWhile (fun c => c == '_')).reverse)
  have hne : (l.dropWhile (fun c => c == '_')).reverse.dropWhile
      (fun c => c == '_') ≠ [] := by
    intro hemp
    rw [hemp] at h
    simp at h
  rw [getLast?_of_suffix hs hne, List.getLast?_reverse] at h
  exact dropWhile_und_head h

theorem stripU_eq_self_of {l : List Char}
    (h1 : ∀ c, l.head? = some c → c ≠ '_')
    (h2 : ∀ c, l.getLast? = some c → c ≠ '_') : stripU l = l := by
  have hfront : l.dropWhile (fun c => c == '_') = l := by
    cases l with
    | nil => rfl
    | cons a t =>
      rw [List.dropWhile_cons, if_neg]
      simpa using h1 a rfl
  unfold stripU
  rw [hfront]
  have hback : l.reverse.dropWhile (fun c => c == '_') = l.reverse := by
    cases hr : l.reverse with
    | nil => rfl
    | cons a t =>
      rw [List.dropWhile_cons, if_neg]
      have : l.getLast? = some a := by
        rw [← List.head?_reverse, hr]; rfl
      simpa using h2 a this
  rw [hback, List.reverse_reverse]

theorem stripU_idem (l : List Char) : stripU (stripU l) = stripU l :=
  stripU_eq_self_of (fun _ h => stripU_head_ne h) (fun _ h => stripU_getLast_ne h)

theorem mem_stripU {c : Char} {l : List Char} (h : c ∈ stripU l) : c ∈ l := by
  unfold stripU at h
  rw [List.mem_reverse] at h
  have h2 := (dropWhile_und_suffix _ _).sublist.mem h
  rw [List.mem_reverse] at h2
  exact (dropWhile_und_suffix _ _).sublist.mem h2

theorem mem_sanitizeCore {c : Char} {l : List Char} (h : c ∈ sanitizeCore l) :
    allowedKeyChar c = true :=
  mem_replaceDisallowed (mem_collapseU _ (mem_stripU h))

/-- Re-running the replacement, collapse and strip on their own output is the
identity. -/
theorem sanitizeCore_idem (l : List Char) :
    sanitizeCore (sanitizeCore l) = sanitizeCore l := by
  have hrep : replaceDisallowed (sanitizeCore l) = sanitizeCore l :=
    replaceDisallowed_eq_self (fun c hc => mem_sanitizeCore hc)
  have hch : NoUU (sanitizeCore l) := noUU_stripU (chain'_collapseU _)
  have hcol : collapseU (sanitizeCore l) = sanitizeCore l := collapseU_eq_self hch
  show stripU (collapseU (replaceDisallowed (sanitizeCore l))) = sanitizeCore l
  rw [hrep, hcol]
  exact stripU_idem _

theorem length_flatMap_byteHex :
    ∀ (l : List Nat), (l.flatMap byteHex).length = 2 * l.length := by
  intro l
  induction l with
  | nil => rfl
  | cons a t ih =>
    simp only [List.flatMap_cons, List.length_append, ih, byteHex]
    simp [List.length_cons]
    omega

theorem md5Digest_length (s : String) : (md5Digest s).length = 16 := by
  unfold md5Digest
  simp [le4]

theorem md5Hex_length (s : String) : (md5Hex s).length = 32 := by
  unfold md5Hex
  rw [length_flatMap_byteHex, md5Digest_length]

theorem hexDigitCh_mem (n : Nat) : hexDigitCh n ∈ hexDigits := by
  unfold hexDigitCh
  rw [List.getD_eq_getElem hexDigits '0' (by
    have := Nat.mod_lt n (show 0 < 16 by decide)
    simpa [hexDigits] using this)]
  exact List.getElem_mem _

theorem mem_md5Hex_hex {s : String} {c : Char} (h : c ∈ md5Hex s) :
    c ∈ hexDigits := by
  unfold md5Hex at h
  rcases List.mem_flatMap.mp h with ⟨b, _, hb⟩
  rcases List.mem_cons.mp hb with rfl | hb2
  · exact hexDigitCh_mem _
  · rcases List.mem_cons.mp hb2 with rfl | hb3
    · exact hexDigitCh_mem _
    · simp at hb3

theorem hex_char_props : ∀ c ∈ hexDigits, c ≠ '_' ∧ allowedKeyChar c = true := by
  decide

/-! ## C9 — document-key sanitization idempotence -/

/-- Membership from `getLast?`. -/
theorem mem_of_getLast? {l : List Char} {c : Char} (h : l.getLast? = some c) :
    c ∈ l := by
  rw [← List.head?_reverse] at h
  have : c ∈ l.reverse := by
    cases hr : l.reverse with
    | nil => rw [hr] at h; simp at h
    | cons a t =>
      rw [hr] at h
      simp only [List.head?_cons, Option.some.injEq] at h
      subst h
      exact List.mem_cons_self a t
  exact List.mem_reverse.mp this

/-- Lists without underscores trivially have no underscore runs. -/
theorem noUU_of_no_und {l : List Char} (h : ∀ c ∈ l, ¬(c = '_')) : NoUU l := by
  induction l with
  | nil => simp [NoUU]
  | cons a t ih =>
    refine List.chain'_cons'.mpr
      ⟨?_, ih (fun c hc => h c (List.mem_cons_of_mem a hc))⟩
    intro y _ hcon
    exact h a (List.mem_cons_self a t) hcon.1

/-- C9 counterexample key: its collapsed/stripped form is 1012 characters
long with an underscore at index 991, so the truncation produces
`…a_` + `_` + hash — a junction double underscore that a second
sanitization collapses. -/
def c9LongKey : String :=
  String.mk (List.replicate 991 'a' ++ '_' :: List.replicate 20 'a')

set_option maxRecDepth 100000

/-- C9 counterexample: sanitizing `c9LongKey` yields a 1001-character key
(992-character prefix ending in `_`, the inserted `_`, an 8-character MD5
suffix) whose junction holds a double underscore; re-sanitizing collapses it
to 1000 characters.  This key therefore refutes the claimed idempotence of
`_sanitize_document_key`: beyond the 1000-character cutoff idempotence can
fail. -/
theorem c9_counterexample :
    sanitizeDocumentKey (sanitizeDocumentKey c9LongKey) ≠
      sanitizeDocumentKey c9LongKey := by
  have hcore : sanitizeCore c9LongKey.toList = c9LongKey.toList := by decide
  have hdentl : c9LongKey.toList =
      List.replicate 991 'a' ++ '_' :: List.replicate 20 'a' := rfl
  set h8 : List Char := (md5Hex c9LongKey).take 8 with hh8
  have hh8len : h8.length = 8 := by
    rw [hh8, List.length_take, md5Hex_length]
    decide
  have hh8mem : ∀ c ∈ h8, c ∈ hexDigits := by
    intro c hc
    exact mem_md5Hex_hex (List.mem_of_mem_take hc)
  have hne8 : ∀ c ∈ h8, ¬(c = '_') := by
    intro c hc
    exact (hex_char_props c (hh8mem c hc)).1
  have htake : c9LongKey.toList.take 992 = List.replicate 991 'a' ++ ['_'] := by
    decide
  -- first sanitization: length 1012 > 1000, so truncate and append the hash
  have hs1 : sanitizeDocumentKey c9LongKey =
      String.mk (List.replicate 991 'a' ++ '_' :: '_' :: h8) := by
    unfold sanitizeDocumentKey
    dsimp only
    rw [hcore, if_pos (by rw [hdentl]; decide), htake, ← hh8]
    simp
  -- second sanitization: the junction `__` collapses, giving length 1000
  have hall : ∀ c ∈ List.replicate 991 'a' ++ '_' :: '_' :: h8,
      allowedKeyChar c = true := by
    intro c hc
    rcases List.mem_append.mp hc with h | h
    · rw [List.eq_of_mem_replicate h]; decide
    · rcases List.mem_cons.mp h with rfl | h2
      · decide
      · rcases List.mem_cons.mp h2 with rfl | h3
        · decide
        · exact (hex_char_props c (hh8mem c h3)).2
  have hcons_a : ∀ (n : Nat) (l : List Char),
      collapseU (List.replicate n 'a' ++ l) =
        List.replicate n 'a' ++ collapseU l := by
    intro n
    induction n with
    | zero => intro l; simp
    | succ k ih =>
      intro l
      have hstep : ∀ (m : List Char),
          collapseU ('a' :: m) = 'a' :: collapseU m := by
        intro m
        cases m with
        | nil => rfl
        | cons b r =>
          show collapseU ('a' :: b :: r) = 'a' :: collapseU (b :: r)
          conv_lhs => rw [collapseU]
          rw [if_neg (by simp)]
      rw [List.replicate_succ, List.cons_append, hstep, ih]
      rfl
  have hcol2 : collapseU (List.replicate 991 'a' ++ '_' :: '_' :: h8) =
      List.replicate 991 'a' ++ '_' :: h8 := by
    rw [hcons_a]
    have h1 : collapseU ('_' :: '_' :: h8) = collapseU ('_' :: h8) := by
      conv_lhs => rw [collapseU]
      rw [if_pos ⟨rfl, rfl⟩]
    have h2 : collapseU ('_' :: h8) = '_' :: collapseU h8 := by
      cases hcase : h8 with
      | nil => rfl
      | cons b r =>
        show collapseU ('_' :: b :: r) = '_' :: collapseU (b :: r)
        conv_lhs => rw [collapseU]
        rw [if_neg]
        intro hb
        exact hne8 b (by rw [hcase]; exact List.mem_cons_self b r) hb.2
    have h3 : collapseU h8 = h8 := collapseU_eq_self (noUU_of_no_und hne8)
    rw [h1, h2, h3]
  have hs2core : sanitizeCore (List.replicate 991 'a' ++ '_' :: '_' :: h8) =
      List.replicate 991 'a' ++ '_' :: h8 := by
    show stripU (collapseU (replaceDisallowed _)) = _
    rw [replaceDisallowed_eq_self hall, hcol2]
    apply stripU_eq_self_of
    · intro c hc
      rw [List.replicate_succ, List.cons_append] at hc
      simp only [List.head?_cons, Option.some.injEq] at hc
      subst hc
      decide
    · intro c hc
      rw [List.getLast?_append_of_ne_nil _ (by simp)] at hc
      have h8ne : h8 ≠ [] := by
        intro h0
        rw [h0] at hh8len
        simp at hh8len
      rw [show ('_' :: h8) = ['_'] ++ h8 from rfl,
        List.getLast?_append_of_ne_nil _ h8ne] at hc
      exact hne8 c (mem_of_getLast? hc)
  have hs2 : sanitizeDocumentKey (sanitizeDocumentKey c9LongKey) =
      String.mk (List.replicate 991 'a' ++ '_' :: h8) := by
    rw [hs1]
    unfold sanitizeDocumentKey
    dsimp only
    rw [show (String.mk (List.replicate 991 'a' ++ '_' :: '_' :: h8)).toList =
      List.replicate 991 'a' ++ '_' :: '_' :: h8 from rfl]
    rw [hs2core, if_neg (by simp [hh8len])]
  intro heq
  rw [hs2, hs1] at heq
  have hlen := congrArg (fun t : String => t.toList.length) heq
  simp only [String.toList] at hlen
  simp [hh8len] at hlen

/-- C9, amended: `_sanitize_document_key` is idempotent on every key whose
replaced/collapsed/stripped form stays within the 1000-character cutoff —
re-sanitizing such a key changes nothing.  Beyond the cutoff idempotence does
not hold in general: the truncated-and-hashed result is 1001 characters and is
itself re-truncated, and `c9_counterexample` exhibits a key whose re-sanitized
form differs (its junction double underscore collapses). -/
theorem c9_sanitize_idempotent_below_cutoff (key : String)
    (h : (sanitizeCore key.toList).length ≤ 1000) :
    sanitizeDocumentKey (sanitizeDocumentKey key) = sanitizeDocumentKey key := by
  have h1 : sanitizeDocumentKey key = String.mk (sanitizeCore key.toList) := by
    unfold sanitizeDocumentKey
    dsimp only
    rw [if_neg (by omega)]
  rw [h1]
  unfold sanitizeDocumentKey
  dsimp only
  rw [show (String.mk (sanitizeCore key.toList)).toList =
    sanitizeCore key.toList from rfl]
  rw [sanitizeCore_idem, if_neg (by omega)]

/-- C9 witness: `email::0` sanitizes to `email_0`, whose core form is 7
characters, and re-sanitizing leaves it unchanged. -/
theorem c9_witness :
    (sanitizeCore "email::0".toList).length ≤ 1000 ∧
    sanitizeDocumentKey (sanitizeDocumentKey "email::0") =
      sanitizeDocumentKey "email::0" :=
  ⟨by decide, c9_sanitize_idempotent_below_cutoff "email::0" (by decide)⟩

/-! ## C2 — policy rule D -/

/-- C2 counterexample input: the recipient is in `to`, a request keyword and
the recipient's team name appear in the body, rule A's mention condition
fails (an unrelated mention and no recipient mention), and rules B and C do
not apply — yet the decision is `"none"`, not `"D"`. -/
def c2Input : PolicyInput :=
  { from_address := "kim@x.com"
    to_addresses := ["jihoon.park@techcorp.com"]
    cc_addresses := []
    email_body := "@김철수 백엔드개발팀 부탁" }

/-- The recipient context hard-coded by the pipeline (lines 1455–1459). -/
def uPark : UserCtx :=
  { name := "박지훈", email := "jihoon.park@techcorp.com", team := "백엔드개발팀" }

/-- C2, counterexample: on `c2Input` all of rule D's conditions hold
(`toContainsSelf`, `requestDetected`, team-substring) and no earlier rule
fires, but `analyze_with_policy_engine` returns `"none"` — not `"D"` as the
claim requires. -/
theorem c2_counterexample :
    (analyzeWithPolicyEngine c2Input uPark).to_contains_self = true ∧
    (analyzeWithPolicyEngine c2Input uPark).request_detected = true ∧
    containsSubS c2Input.email_body uPark.team = true ∧
    (analyzeWithPolicyEngine c2Input uPark).self_sent = false ∧
    (analyzeWithPolicyEngine c2Input uPark).cc_contains_self = false ∧
    (analyzeWithPolicyEngine c2Input uPark).policy_decision ≠ "A" ∧
    (analyzeWithPolicyEngine c2Input uPark).policy_decision ≠ "B" ∧
    (analyzeWithPolicyEngine c2Input uPark).policy_decision ≠ "C" ∧
    (analyzeWithPolicyEngine c2Input uPark).policy_decision = "none" := by
  decide

/-- C2, amended: rule D is unreachable.  Its guard requires
`toContainsSelf ∧ requestDetected`, which is captured by the `if` branch of
rule A (lines 564–575); the `elif` for D (lines 585–591) is therefore dead,
and `analyze_with_policy_engine` only ever returns A, B, C or `none` —
never D. -/
theorem c2_policy_decision_never_d (e : PolicyInput) (u : UserCtx) :
    (analyzeWithPolicyEngine e u).policy_decision ≠ "D" ∧
    (analyzeWithPolicyEngine e u).policy_decision ∈ ["A", "B", "C", "none"] := by
  have key : ∀ (tc cc ss rd : Bool) (ms : List String) (un ut b : String),
      policyDecision tc cc ss rd ms un ut b ≠ "D" ∧
      policyDecision tc cc ss rd ms un ut b ∈ ["A", "B", "C", "none"] := by
    intro tc cc ss rd ms un ut b
    cases tc <;> cases rd <;> cases cc <;> cases ss <;>
      (simp only [policyDecision]; split_ifs <;> simp_all)
  exact key _ _ _ _ _ _ _ _

/-! ## Helper lemmas on substrings and stripping -/

theorem findSub_isSome_iff (hay needle : List Char) :
    (findSub hay needle).isSome ↔ needle <:+: hay := by
  induction hay with
  | nil =>
    cases needle with
    | nil => simp [findSub, List.isPrefixOf]
    | cons c t => simp [findSub, List.isPrefixOf]
  | cons c t ih =>
    by_cases hp : needle.isPrefixOf (c :: t)
    · unfold findSub
      rw [if_pos hp]
      simp only [Option.isSome_some, true_iff]
      exact (List.isPrefixOf_iff_prefix.mp hp).isInfix
    · unfold findSub
      rw [if_neg hp]
      dsimp only
      constructor
      · intro h
        have hs : (findSub t needle).isSome := by
          cases hfs : findSub t needle
          · rw [hfs] at h; simp at h
          · simp
        rw [List.infix_cons_iff]
        exact Or.inr (ih.mp hs)
      · intro h
        rcases (List.infix_cons_iff).mp h with h1 | h1
        · exact absurd (List.isPrefixOf_iff_prefix.mpr h1) hp
        · have hs := ih.mpr h1
          cases hfs : findSub t needle
          · rw [hfs] at hs; simp at hs
          · simp [hfs]

theorem containsSub_iff (hay needle : List Char) :
    containsSub hay needle = true ↔ needle <:+: hay := by
  unfold containsSub
  rw [← findSub_isSome_iff hay needle]

theorem dropWhile_eq_self_of_all {p : Char → Bool} {l : List Char}
    (h : ∀ c ∈ l, p c = false) : l.dropWhile p = l := by
  cases l with
  | nil => rfl
  | cons c t => simp [List.dropWhile_cons, h c (List.mem_cons_self c t)]

theorem pyStripL_eq_self {l : List Char} (h : ∀ c ∈ l, isPyWs c = false) :
    pyStripL l = l := by
  unfold pyStripL
  rw [dropWhile_eq_self_of_all h,
    dropWhile_eq_self_of_all (fun c hc => h c (List.mem_reverse.mp hc)),
    List.reverse_reverse]

theorem noSpacesL_eq_self {l : List Char} (h : ∀ c ∈ l, isPyWs c = false) :
    noSpacesL l = l := by
  unfold noSpacesL
  apply List.filter_eq_self.mpr
  intro c hc
  have := h c hc
  simp only [decide_eq_true_eq]
  intro hsp
  rw [hsp] at this
  exact absurd this (by decide)

/-- Entry point for the name-prefix disjunct of `_is_self_mention_text`
(line 222): a mention whose packed form starts with `@` + the cleaned name
always matches. -/
theorem isSelfMentionL_of_name_prefix (mention : List Char) (u : UserCtx)
    (hn : pyStripL u.name.toList ≠ [])
    (hhead : (pyStripL mention).head? = some '@')
    (hpre : ('@' :: lowerL (noSpacesL (pyStripL u.name.toList))).isPrefixOf
      (lowerL (noSpacesL (pyStripL mention))) = true) :
    isSelfMentionL mention u = true := by
  unfold isSelfMentionL
  rw [if_neg (by simp [hhead])]
  simp only [Bool.or_eq_true, Bool.and_eq_true]
  exact Or.inl (Or.inl (Or.inl (Or.inr ⟨by simpa using hn, hpre⟩)))

/-! ## C6 — self-mention matching -/

/-- C6 counterexample: "박지훈수" is an unrelated longer name that merely
extends the recipient's name "박지훈", yet `_is_self_mention_text` accepts it
(through the `packed.startswith("@" + name)` disjunct of line 222), refuting
the claim that such mentions are rejected. -/
theorem c6_counterexample :
    ("박지훈".toList <+: "박지훈수".toList) ∧ "박지훈수" ≠ "박지훈" ∧
    isSelfMentionText "@박지훈수" uPark = true := by decide

/-- C6, amended: `_is_self_mention_text` is case- and whitespace-insensitive
and matches the recipient's name, e-mail local part, full e-mail address, or
team token, while rejecting non-mentions and names that contain the
recipient's name strictly inside; however it *also* accepts every mention
that extends the recipient's name to the right (the `startswith` disjunct)
and any mention containing the team token as a substring. -/
theorem c6_self_mention_matching_amended :
    (isSelfMentionText "@박지훈" uPark = true ∧
     isSelfMentionText "@ 박 지 훈" uPark = true ∧
     isSelfMentionText "@박지훈님" uPark = true ∧
     isSelfMentionText "@JIHOON.PARK" uPark = true ∧
     isSelfMentionText "@jihoon.park@techcorp.com" uPark = true ∧
     isSelfMentionText "@박지훈(백엔드개발팀)" uPark = true ∧
     isSelfMentionText "@백엔드개발팀" uPark = true) ∧
    (isSelfMentionText "박지훈" uPark = false ∧
     isSelfMentionText "@김박지훈" uPark = false ∧
     isSelfMentionText "@김철수" uPark = false) ∧
    (isSelfMentionText "@김철수백엔드개발팀" uPark = true ∧
     ∀ ext : List Char, (∀ c ∈ ext, isPyWs c = false) →
       isSelfMentionL ("@박지훈".toList ++ ext) uPark = true) := by
  refine ⟨by decide, by decide, by decide, ?_⟩
  intro ext hext
  have hall : ∀ c ∈ "@박지훈".toList ++ ext, isPyWs c = false := by
    intro c hc
    rcases List.mem_append.mp hc with h | h
    · simp only [String.toList] at h
      fin_cases h <;> decide
    · exact hext c h
  have hraw : pyStripL ("@박지훈".toList ++ ext) = "@박지훈".toList ++ ext :=
    pyStripL_eq_self hall
  apply isSelfMentionL_of_name_prefix
  · decide
  · rw [hraw]; rfl
  · rw [hraw, noSpacesL_eq_self hall]
    unfold lowerL
    rw [List.map_append]
    apply List.isPrefixOf_iff_prefix.mpr
    exact List.prefix_append _ _

/-- C6 witness: the over-match clause instantiated at the extension "수". -/
theorem c6_witness :
    (∀ c ∈ "수".toList, isPyWs c = false) ∧
    isSelfMentionL ("@박지훈".toList ++ "수".toList) uPark = true :=
  ⟨by decide,
    c6_self_mention_matching_amended.2.2.2 "수".toList (by decide)⟩

/-! ## C4 — self-sent emails force FOLLOW_UP -/

/-- Self-sent policy signals used by the C4/C5 instances. -/
def sigSelfSent : PolicySignals :=
  { policy_decision := "C", self_sent := true, to_contains_self := false
    cc_contains_self := false, mentions := [], request_detected := true }

/-- C4 counterexample: when the completion's JSON parses to a non-dict (for
example the JSON array `[]`, which `json.loads` happily produces and the
`isinstance` guard of line 672 catches), validation returns
`is_action = False` with no action even though `selfSent` holds — refuting
"for every model output". -/
theorem c4_counterexample :
    sigSelfSent.self_sent = true ∧
    validateAndFixAction (Json.arr []) "ctx" [] sigSelfSent uPark =
      .ok { is_action := false, policy_decision := Json.str "none",
            action := none } :=
  ⟨rfl, rfl⟩

/-- C4, amended: for every model output that is a JSON *object* and on which
validation completes (no `AttributeError` from a wrongly-typed field), a
self-sent signal forces `is_action = true` and an action of type
`FOLLOW_UP`, whatever `type` and `is_action` the model proposed.  Non-dict
outputs instead yield the fixed no-action result of line 673. -/
theorem c4_selfsent_forces_followup (kvs : List (String × Json))
    (ctx : String) (hints : List String) (sig : PolicySignals) (u : UserCtx)
    (r : VResult)
    (hss : sig.self_sent = true)
    (hok : validateAndFixAction (Json.obj kvs) ctx hints sig u = .ok r) :
    r.is_action = true ∧ ∃ a, r.action = some a ∧ a.type = "FOLLOW_UP" := by
  unfold validateAndFixAction at hok
  dsimp only at hok
  rw [hss] at hok
  revert hok
  split
  · -- the action field is a dict: walk the `do` chain
    simp only [bind, Except.bind, if_true]
    intro hok
    rcases h1 : jStrOrFalsy (jGet (modelActionJ (Json.obj kvs)) "type") "NONE"
      with e1 | s1 <;> rw [h1] at hok
    · exact absurd hok (by simp)
    rcases h2 : jStrOrFalsy (jGet (modelActionJ (Json.obj kvs)) "title") ""
      with e2 | s2 <;> rw [h2] at hok
    · exact absurd hok (by simp)
    rcases h3 : jStrOrFalsy (jGet (modelActionJ (Json.obj kvs)) "due_raw") ""
      with e3 | s3 <;> rw [h3] at hok
    · exact absurd hok (by simp)
    dsimp only at hok
    rw [show coerceType true s1 = "FOLLOW_UP" from rfl] at hok
    rw [if_neg (show ¬(("FOLLOW_UP" : String) = "NONE") by decide)] at hok
    simp only [pure, Except.pure, Except.ok.injEq] at hok
    subst hok
    exact ⟨rfl, _, rfl, rfl⟩
  · -- the action field is not a dict: the error contradicts success
    intro hok
    exact absurd hok (by simp)

/-- The model output of the C4 witness: proposes `type = "DO"` and
`is_action = false`. -/
def c4InJ : Json :=
  Json.obj [("is_action", Json.bool false),
    ("action", Json.obj [("type", Json.str "DO"),
      ("title", Json.str "로그 분석")])]

/-- C4 witness: a self-sent signal set with a model output proposing
`type = "DO"` and `is_action = false` still validates to a FOLLOW_UP
action with `is_action = true`. -/
theorem c4_witness :
    sigSelfSent.self_sent = true ∧
    ∃ r, validateAndFixAction c4InJ "박지훈 내일까지" [] sigSelfSent uPark =
        .ok r ∧
      r.is_action = true ∧ ∃ a, r.action = some a ∧ a.type = "FOLLOW_UP" := by
  obtain ⟨r, hr⟩ :
      ∃ r, validateAndFixAction c4InJ "박지훈 내일까지" [] sigSelfSent uPark =
        .ok r := ⟨_, rfl⟩
  exact ⟨rfl, r, hr, c4_selfsent_forces_followup _ _ _ _ _ _ rfl hr⟩

/-! ## Validator due-phrase characterization (shared by C5 and C10) -/

theorem pyStripS_empty : pyStripS "" = "" := rfl

/-- The validator's stripped due phrase equals `modelDueRaw` whenever the
`or`/`strip` chain does not raise. -/
theorem dueRaw0_eq {result : Json} {s3 : String}
    (h : jStrOrFalsy (jGet (modelActionJ result) "due_raw") "" = .ok s3) :
    (if pyStripS s3 = "" then none else some (pyStripS s3)) =
      modelDueRaw result := by
  unfold modelDueRaw
  unfold jStrOrFalsy at h
  split_ifs at h with ht
  · -- falsy field: the default "" is used
    simp only [Except.ok.injEq] at h
    subst h
    cases hg : jGet (modelActionJ result) "due_raw" with
    | str s =>
      rw [hg] at ht
      simp only [jTruthy, Bool.not_eq_true'] at ht
      have : s = "" := by
        by_contra hne
        simp [hne] at ht
      subst this
      simp [pyStripS_empty]
    | _ => simp [pyStripS_empty]
  · -- truthy: must be a string
    cases hg : jGet (modelActionJ result) "due_raw" with
    | str s =>
      rw [hg] at h
      simp only [Except.ok.injEq] at h
      subst h
      rfl
    | null => rw [hg] at h; exact absurd h (by simp)
    | bool b => rw [hg] at h; exact absurd h (by simp)
    | num n => rw [hg] at h; exact absurd h (by simp)
    | arr xs => rw [hg] at h; exact absurd h (by simp)
    | obj kvs => rw [hg] at h; exact absurd h (by simp)

/-- Characterization of the validated action's `due_raw` (lines 702–709):
for FOLLOW_UP actions the model's stripped phrase is kept unconditionally,
otherwise it survives exactly when `_is_due_for_user` confirms ownership in
the context text. -/
theorem validate_due_char (result : Json) (ctx : String) (hints : List String)
    (sig : PolicySignals) (u : UserCtx) (r : VResult) (a : VAction)
    (hok : validateAndFixAction result ctx hints sig u = .ok r)
    (ha : r.action = some a) :
    a.type ≠ "NONE" ∧
    a.due_raw = (match modelDueRaw result with
      | some d =>
        if a.type ≠ "FOLLOW_UP" then
          (if isDueForUserS ctx d u then some d else none)
        else some d
      | none => none) := by
  cases result
  case obj kvs =>
    revert hok
    unfold validateAndFixAction
    dsimp only
    split
    · -- the action field is a dict: walk the `do` chain
      simp only [bind, Except.bind]
      intro hok
      rcases h1 : jStrOrFalsy (jGet (modelActionJ (Json.obj kvs)) "type") "NONE"
        with e1 | s1 <;> rw [h1] at hok
      · exact absurd hok (by simp)
      rcases h2 : jStrOrFalsy (jGet (modelActionJ (Json.obj kvs)) "title") ""
        with e2 | s2 <;> rw [h2] at hok
      · exact absurd hok (by simp)
      rcases h3 : jStrOrFalsy (jGet (modelActionJ (Json.obj kvs)) "due_raw") ""
        with e3 | s3 <;> rw [h3] at hok
      · exact absurd hok (by simp)
      dsimp only at hok
      rw [← dueRaw0_eq h3]
      generalize hA : coerceType sig.self_sent s1 = aT at hok
      by_cases hnone : aT = "NONE"
      · rw [if_pos hnone] at hok
        simp only [pure, Except.pure, Except.ok.injEq] at hok
        subst hok
        simp at ha
      · rw [if_neg hnone] at hok
        simp only [pure, Except.pure, Except.ok.injEq] at hok
        subst hok
        simp only [Option.some.injEq] at ha
        subst ha
        exact ⟨hnone, rfl⟩
    · intro hok
      exact absurd hok (by simp)
  all_goals
    unfold validateAndFixAction at hok
  all_goals
    simp only [Except.ok.injEq] at hok
  all_goals
    subst hok
  all_goals
    simp at ha

/-! ## C5 — due-date ownership check -/

/-- C5: for every model result validated successfully into an action, a
non-FOLLOW_UP action (post-coercion type, i.e. DO) keeps the model's
(stripped, non-empty) due phrase if and only if `_is_due_for_user` confirms
ownership in the context text, while a FOLLOW_UP action always keeps it. -/
theorem c5_due_ownership (result : Json) (ctx : String) (hints : List String)
    (sig : PolicySignals) (u : UserCtx) (r : VResult) (a : VAction) (d : String)
    (hok : validateAndFixAction result ctx hints sig u = .ok r)
    (ha : r.action = some a)
    (hd : modelDueRaw result = some d) :
    (a.type ≠ "FOLLOW_UP" →
      (a.due_raw = some d ↔ isDueForUserS ctx d u = true)) ∧
    (a.type = "FOLLOW_UP" → a.due_raw = some d) := by
  obtain ⟨-, hchar⟩ := validate_due_char result ctx hints sig u r a hok ha
  rw [hd] at hchar
  dsimp only at hchar
  constructor
  · intro hT
    rw [hchar, if_pos hT]
    by_cases hdue : isDueForUserS ctx d u = true
    · simp [hdue]
    · simp only [Bool.not_eq_true] at hdue
      simp [hdue]
  · intro hT
    rw [hchar, if_neg (by simp [hT])]

/-- C5 witness input: a DO action with due phrase "내일까지". -/
def c5InJ : Json :=
  Json.obj [("is_action", Json.bool true),
    ("action", Json.obj [("type", Json.str "DO"),
      ("title", Json.str "로그 분석"), ("due_raw", Json.str "내일까지")])]

/-- Non-self-sent signal set for the C5/C10 witnesses. -/
def sigPlain : PolicySignals :=
  { policy_decision := "A", self_sent := false, to_contains_self := true
    cc_contains_self := false, mentions := [], request_detected := true }

/-- C5 witness: in a mention-free context containing the recipient's name,
`_is_due_for_user` confirms ownership and the DO action keeps "내일까지". -/
theorem c5_witness :
    ∃ r a, validateAndFixAction c5InJ "박지훈 내일까지 부탁" [] sigPlain uPark =
        .ok r ∧
      r.action = some a ∧ modelDueRaw c5InJ = some "내일까지" ∧
      a.type ≠ "FOLLOW_UP" ∧
      (a.due_raw = some "내일까지" ↔
        isDueForUserS "박지훈 내일까지 부탁" "내일까지" uPark = true) ∧
      a.due_raw = some "내일까지" := by
  refine ⟨_, _, rfl, rfl, rfl, by decide, ?_, by decide⟩
  exact (c5_due_ownership c5InJ "박지훈 내일까지 부탁" [] sigPlain uPark _ _
    "내일까지" rfl rfl rfl).1 (by decide)

/-! ## C10 — non-verbatim due phrases are discarded -/

/-- C10: `_is_due_for_user` returns false whenever the candidate phrase does
not occur verbatim in the context text (the `text.find(cand) == -1` guard of
lines 313–314); consequently validation always discards a non-FOLLOW_UP
action's due phrase that the model did not copy verbatim from the
subject-prefixed segment text. -/
theorem c10_nonverbatim_due_discarded :
    (∀ (text cand : List Char) (u : UserCtx),
      containsSub text cand = false → isDueForUser text cand u = false) ∧
    (∀ (result : Json) (subject segText : String) (hints : List String)
      (sig : PolicySignals) (u : UserCtx) (r : VResult) (a : VAction)
      (d : String),
      validateAndFixAction result (subject ++ "\n\n" ++ segText) hints sig u =
        .ok r →
      r.action = some a → a.type ≠ "FOLLOW_UP" →
      modelDueRaw result = some d →
      containsSub (subject ++ "\n\n" ++ segText).toList d.toList = false →
      a.due_raw = none) := by
  have partA : ∀ (text cand : List Char) (u : UserCtx),
      containsSub text cand = false → isDueForUser text cand u = false := by
    intro text cand u h
    unfold isDueForUser
    cases hfs : findSub text cand with
    | none => rfl
    | some i =>
      exfalso
      unfold containsSub at h
      rw [hfs] at h
      simp at h
  refine ⟨partA, ?_⟩
  intro result subject segText hints sig u r a d hok ha hT hd hnotin
  obtain ⟨-, hchar⟩ :=
    validate_due_char result (subject ++ "\n\n" ++ segText) hints sig u r a
      hok ha
  rw [hd] at hchar
  dsimp only at hchar
  rw [hchar, if_pos hT]
  unfold isDueForUserS
  rw [partA _ _ _ hnotin]
  simp

/-- C10 witness input: a DO action whose due phrase "내일까지" does not occur
in the context text. -/
def c10InJ : Json :=
  Json.obj [("is_action", Json.bool true),
    ("action", Json.obj [("type", Json.str "DO"),
      ("title", Json.str "로그 분석"), ("due_raw", Json.str "내일까지")])]

/-- C10 witness: both halves instantiated — an absent phrase is never owned,
and validation drops the fabricated due phrase. -/
theorem c10_witness :
    isDueForUser "로그 정리 요청".toList "내일까지".toList uPark = false ∧
    ∃ r a, validateAndFixAction c10InJ ("제목" ++ "\n\n" ++ "로그 정리 요청")
        [] sigPlain uPark = .ok r ∧
      r.action = some a ∧ a.due_raw = none := by
  refine ⟨c10_nonverbatim_due_discarded.1 _ _ _ (by decide), _, _, rfl, rfl, ?_⟩
  exact c10_nonverbatim_due_discarded.2 c10InJ "제목" "로그 정리 요청" []
    sigPlain uPark _ _ "내일까지" rfl rfl (by decide) rfl (by decide)

/-! ## C8 — deadline hint extraction -/

/-- All stripped matches, pattern-major (priority) order then text order. -/
def deadlineMatchesAll (text : List Char) : List (List Char) :=
  (deadlinePatterns.flatMap (fun p => reFindAll p text)).map pyStripL

/-- Order-preserving first-occurrence deduplication. -/
def dedupKeepFirstL (found : List (List Char)) :
    List (List Char) → List (List Char)
  | [] => found
  | s :: rest =>
    dedupKeepFirstL (if found.contains s then found else found ++ [s]) rest

theorem dedupKeepFirstL_prefix (l : List (List Char)) :
    ∀ found, found <+: dedupKeepFirstL found l := by
  induction l with
  | nil => intro found; exact List.prefix_refl _
  | cons s rest ih =>
    intro found
    unfold dedupKeepFirstL
    split_ifs with h
    · exact ih found
    · exact (List.prefix_append found [s]).trans (ih (found ++ [s]))

theorem dedupKeepFirstL_nodup (l : List (List Char)) :
    ∀ found, found.Nodup → (dedupKeepFirstL found l).Nodup := by
  induction l with
  | nil => intro found h; exact h
  | cons s rest ih =>
    intro found h
    unfold dedupKeepFirstL
    split_ifs with hc
    · exact ih found h
    · refine ih (found ++ [s]) ?_
      have hns : s ∉ found := by simpa using hc
      simp only [List.nodup_append, List.nodup_cons, List.nodup_nil]
      refine ⟨h, by simp, ?_⟩
      intro x hx
      simp only [List.mem_singleton]
      intro hxs
      subst hxs
      exact hns hx

theorem dedupKeepFirstL_mem {c : List Char} (l : List (List Char)) :
    ∀ found, c ∈ dedupKeepFirstL found l → c ∈ found ∨ c ∈ l := by
  induction l with
  | nil => intro found h; exact Or.inl h
  | cons s rest ih =>
    intro found h
    unfold dedupKeepFirstL at h
    split_ifs at h with hc
    · rcases ih found h with h1 | h1
      · exact Or.inl h1
      · exact Or.inr (List.mem_cons_of_mem s h1)
    · rcases ih (found ++ [s]) h with h1 | h1
      · rcases List.mem_append.mp h1 with h2 | h2
        · exact Or.inl h2
        · simp only [List.mem_singleton] at h2
          subst h2
          exact Or.inr (List.mem_cons_self _ _)
      · exact Or.inr (List.mem_cons_of_mem s h1)

theorem peRun_eq_dedup_take {N : Nat} (l : List (List Char)) :
    ∀ found, found.length < N →
      peRun N found l = (dedupKeepFirstL found l).take N := by
  induction l with
  | nil =>
    intro found h
    unfold peRun dedupKeepFirstL
    exact (List.take_of_length_le (Nat.le_of_lt h)).symm
  | cons s rest ih =>
    intro found h
    unfold peRun dedupKeepFirstL
    split_ifs with hc
    · exact ih found h
    · rcases Nat.lt_or_ge (found ++ [s]).length N with hlt | hge
      · rw [if_neg (Nat.not_le.mpr hlt)]
        exact ih (found ++ [s]) hlt
      · have hlen : (found ++ [s]).length = N := by
          simp only [List.length_append, List.length_singleton] at hge h ⊢
          omega
        rw [if_pos (Nat.le_of_eq hlen.symm)]
        obtain ⟨t, ht⟩ := dedupKeepFirstL_prefix rest (found ++ [s])
        rw [← ht, List.take_append_eq_append_take, ← hlen, List.take_length,
          Nat.sub_self, List.take_zero, List.append_nil]

/-- C8 counterexample: on "3시까지 5시까지" the extractor returns *two*
substrings that are both matches of the same pattern (the clock pattern,
index 5) — the inner `finditer` loop of lines 167–173 collects every match
of a pattern, not only the first, refuting "at most one matched substring
per pattern, namely that pattern's first match". -/
theorem c8_counterexample :
    preExtractDeadlines "3시까지 5시까지".toList 5 =
      ["3시까지".toList, "5시까지".toList] ∧
    ∃ p ∈ deadlinePatterns,
      2 ≤ ((preExtractDeadlines "3시까지 5시까지".toList 5).filter
        (fun s => ((reFindAll p "3시까지 5시까지".toList).map
          pyStripL).contains s)).length := by
  constructor
  · decide
  · exact ⟨deadlinePatterns.get ⟨5, by decide⟩,
      List.get_mem deadlinePatterns 5 (by decide), by decide⟩

/-- C8, amended: `_pre_extract_deadlines` equals the first `max_items`
entries of the order-preserving deduplication of *all* stripped matches in
pattern-priority (then in-text) order; the output is duplicate-free, capped
at `max_items` (for a positive cap) and every entry is a stripped match of
some pattern — but a single pattern may contribute several entries, not just
its first match. -/
theorem c8_hint_extraction_amended (text : List Char) (n : Nat)
    (hn : 1 ≤ n) :
    preExtractDeadlines text n =
      (dedupKeepFirstL [] (deadlineMatchesAll text)).take n ∧
    (preExtractDeadlines text n).Nodup ∧
    (preExtractDeadlines text n).length ≤ n ∧
    ∀ s ∈ preExtractDeadlines text n, s ∈ deadlineMatchesAll text := by
  have heq : preExtractDeadlines text n =
      (dedupKeepFirstL [] (deadlineMatchesAll text)).take n :=
    peRun_eq_dedup_take (deadlineMatchesAll text) []
      (by simp only [List.length_nil]; omega)
  refine ⟨heq, ?_, ?_, ?_⟩
  · rw [heq]
    exact (dedupKeepFirstL_nodup _ [] (by simp)).sublist (List.take_sublist _ _)
  · rw [heq]
    exact List.length_take_le _ _
  · intro s hs
    rw [heq] at hs
    have hmem := (List.take_sublist _ _).mem hs
    rcases dedupKeepFirstL_mem _ [] hmem with h | h
    · simp at h
    · exact h

/-- C8 witness: the amended characterization at a concrete text and cap. -/
theorem c8_witness :
    (1 ≤ 5) ∧
    (preExtractDeadlines "내일까지 회신".toList 5 =
      (dedupKeepFirstL [] (deadlineMatchesAll "내일까지 회신".toList)).take 5 ∧
    (preExtractDeadlines "내일까지 회신".toList 5).Nodup ∧
    (preExtractDeadlines "내일까지 회신".toList 5).length ≤ 5 ∧
    ∀ s ∈ preExtractDeadlines "내일까지 회신".toList 5,
      s ∈ deadlineMatchesAll "내일까지 회신".toList) :=
  ⟨by decide, c8_hint_extraction_amended "내일까지 회신".toList 5 (by decide)⟩

/-! ## C1 — extraction orchestration -/

theorem segLoop_eq_findSome (llmSeg : Nat → Option Json) (subject : String)
    (sig : PolicySignals) (u : UserCtx) :
    ∀ (segs : List (Nat × Nat × List Char)) (idx : Nat),
      segLoop llmSeg subject sig u idx segs =
        (segs.mapIdx (fun i s =>
          tryOneSegment llmSeg subject sig u (idx + i) s.2.2)).findSome? id := by
  intro segs
  induction segs with
  | nil => intro idx; rfl
  | cons s rest ih =>
    intro idx
    rw [List.mapIdx_cons, List.findSome?_cons]
    unfold segLoop
    simp only [Nat.add_zero, id]
    cases htry : tryOneSegment llmSeg subject sig u idx s.2.2 with
    | some r => rfl
    | none =>
      rw [ih (idx + 1)]
      have hfun :
          (fun (i : Nat) (t : Nat × Nat × List Char) =>
            tryOneSegment llmSeg subject sig u (idx + 1 + i) t.2.2) =
          (fun (i : Nat) (t : Nat × Nat × List Char) =>
            tryOneSegment llmSeg subject sig u (idx + (i + 1)) t.2.2) := by
        funext i t
        congr 1
        omega
      rw [hfun]

/-- C1, amended: the extractor returns the first qualifying validated
segment attempt; when no attempt qualifies, the single full-body fallback
call happens *only when the segment list is empty* — when segments exist but
every attempt fails (non-action, parse error or call error), no fallback is
made and the result is "no action" carrying the signals' policy decision. -/
theorem c1_extraction_strategy_amended (llmSeg : Nat → Option Json)
    (llmFull : Option Json) (email : StdEmail) (sig : PolicySignals)
    (u : UserCtx) :
    extractActionsWithLlm llmSeg llmFull email sig u =
      extractActionsSpec llmSeg llmFull email sig u ∧
    ((extractActionsWithLlm llmSeg llmFull email sig u).2 = true ↔
      getSelfMentionSegments email.body u = []) := by
  have hfun :
      (fun (i : Nat) (t : Nat × Nat × List Char) =>
        tryOneSegment llmSeg email.subject sig u (0 + i) t.2.2) =
      (fun (i : Nat) (t : Nat × Nat × List Char) =>
        tryOneSegment llmSeg email.subject sig u i t.2.2) := by
    funext i t
    rw [Nat.zero_add]
  have heq : extractActionsWithLlm llmSeg llmFull email sig u =
      extractActionsSpec llmSeg llmFull email sig u := by
    unfold extractActionsWithLlm extractActionsSpec
    dsimp only
    rw [segLoop_eq_findSome llmSeg email.subject sig u
      (getSelfMentionSegments email.body u) 0, hfun]
    cases hF : List.findSome? id
        (List.mapIdx (fun i t => tryOneSegment llmSeg email.subject sig u i
          t.2.2) (getSelfMentionSegments email.body u)) with
    | some r => rfl
    | none =>
      dsimp only
      split_ifs with hempty
      · cases llmFull with
        | none => rfl
        | some j =>
          dsimp only
          cases validateAndFixAction j (email.subject ++ "\n\n" ++ email.body)
            (collectDeadlineHints email.subject email.body) sig u <;> rfl
      · rfl
  refine ⟨heq, ?_⟩
  rw [heq]
  unfold extractActionsSpec
  dsimp only
  cases hE : ((getSelfMentionSegments email.body u).mapIdx
      (fun i s => tryOneSegment llmSeg email.subject sig u i s.2.2)).findSome?
      id with
  | some r =>
    dsimp only
    constructor
    · intro h; cases h
    · intro h
      rw [h] at hE
      simp at hE
  | none =>
    dsimp only
    cases hemp : (getSelfMentionSegments email.body u).isEmpty
    · rw [if_neg (by simp [hemp])]
      simp only [Bool.false_eq_true, false_iff]
      intro h
      rw [h] at hemp
      simp at hemp
    · rw [if_pos (by simp_all)]
      simp only [true_iff]
      exact List.isEmpty_iff.mp hemp

/-- C1 counterexample e-mail: the body holds one self-mention segment. -/
def c1Email : StdEmail := ⟨"제목", "@박지훈 로그 확인 부탁"⟩

/-- C1 counterexample: with one segment whose extraction attempt fails (the
completion oracle errors on every call), the claim demands exactly one
full-body fallback call, but the code makes none — `tried_any` is true, so
it returns "no action" with the signals' policy (lines 796–836). -/
theorem c1_counterexample :
    getSelfMentionSegments c1Email.body uPark ≠ [] ∧
    extractActionsWithLlm (fun _ => none)
      (some (Json.obj [("is_action", Json.bool true)])) c1Email sigPlain
      uPark = (noActionWithPolicy sigPlain, false) := by
  constructor
  · decide
  · rfl

/-! ## C7 — deadline resolver round-trip -/

/-- The reference instant `2024-06-10T09:00:00+09:00` of the claim, already
converted to KST wall clock (the `received_at_iso` parsing of lines 910–919
is plumbing around `dateutil`). -/
def c7Ref : KDT := ⟨⟨2024, 6, 10⟩, 9, 0⟩

/-- C7: with reference time 2024-06-10 09:00 KST (a Monday, weekday 0),
"오늘 오후 3시까지" resolves to local 2024-06-10 15:00 KST with UTC instant
2024-06-10T06:00:00+00:00 — exactly 9 hours (540 minutes) earlier on the
wall clock, i.e. the instant the claim writes `2024-06-10T06:00:00Z` — and
"이번 주 금요일까지" resolves to 2024-06-14 at the default hour 18:00 KST.
Both results hold for every fuzzy-parser oracle and every LLM oracle: the
rule-based branches decide before either external call could be made. -/
theorem c7_deadline_resolver_roundtrip :
    ∀ (fuzzy : String → Option KDT)
      (llmFix : String → Option String × Option String),
      c7Ref.date.weekday = 0 ∧
      resolveRelativeDeadline fuzzy llmFix "오늘 오후 3시까지" c7Ref =
        .ok (some "2024-06-10 15:00 KST", some "2024-06-10T06:00:00+00:00") ∧
      resolveRelativeDeadline fuzzy llmFix "이번 주 금요일까지" c7Ref =
        .ok (some "2024-06-14 18:00 KST", some "2024-06-14T09:00:00+00:00") ∧
      (KDT.mk ⟨2024, 6, 10⟩ 15 0).utcEpochMinutes =
        (KDT.mk ⟨2024, 6, 10⟩ 6 0).utcEpochMinutes + 540 := by
  intro fuzzy llmFix
  refine ⟨by decide, ?_, ?_, by decide⟩ <;> rfl

/-! ## C3 — segmenter geometry -/

/-- A successful `dropLit` only consumes input. -/
theorem dropLit_length :
    ∀ (s cs r : List Char), dropLit s cs = some r → r.length ≤ cs.length := by
  intro s
  induction s with
  | nil =>
    intro cs r h
    simp only [dropLit, Option.some.injEq] at h
    subst h; exact Nat.le_refl _
  | cons p ps ih =>
    intro cs r h
    cases cs with
    | nil => exact Option.noConfusion h
    | cons c cs' =>
      simp only [dropLit] at h
      split_ifs at h with hpc
      exact Nat.le_succ_of_le (ih cs' r h)

/-- A successful `dropLitCI` only consumes input. -/
theorem dropLitCI_length :
    ∀ (s cs r : List Char), dropLitCI s cs = some r → r.length ≤ cs.length := by
  intro s
  induction s with
  | nil =>
    intro cs r h
    simp only [dropLitCI, Option.some.injEq] at h
    subst h; exact Nat.le_refl _
  | cons p ps ih =>
    intro cs r h
    cases cs with
    | nil => exact Option.noConfusion h
    | cons c cs' =>
      simp only [dropLitCI] at h
      split_ifs at h with hpc
      exact Nat.le_succ_of_le (ih cs' r h)

/-- The matcher never re-grows the input: every outcome's rest is at most the
input. -/
theorem reMatch_length (r : RE) :
    ∀ (p : Option Char) (cs : List Char) (pr : Option Char × List Char),
      pr ∈ reMatch r p cs → pr.2.length ≤ cs.length := by
  induction r with
  | eps =>
    intro p cs pr h
    simp only [reMatch, List.mem_singleton] at h
    subst h; exact Nat.le_refl _
  | lit s =>
    intro p cs pr h
    simp only [reMatch] at h
    cases hd : dropLit s cs with
    | none => rw [hd] at h; exact absurd h (List.not_mem_nil pr)
    | some rest =>
      rw [hd] at h
      simp only [List.mem_singleton] at h
      subst h
      exact dropLit_length s cs rest hd
  | litCI s =>
    intro p cs pr h
    simp only [reMatch] at h
    cases hd : dropLitCI s cs with
    | none => rw [hd] at h; exact absurd h (List.not_mem_nil pr)
    | some rest =>
      rw [hd] at h
      simp only [List.mem_singleton] at h
      subst h
      exact dropLitCI_length s cs rest hd
  | cls f =>
    intro p cs pr h
    cases cs with
    | nil => exact absurd h (List.not_mem_nil pr)
    | cons c cs' =>
      simp only [reMatch] at h
      split_ifs at h with hfc
      · simp only [List.mem_singleton] at h
        subst h
        exact Nat.le_succ_of_le (Nat.le_refl _)
      · exact absurd h (List.not_mem_nil pr)
  | seq a b iha ihb =>
    intro p cs pr h
    simp only [reMatch, List.mem_flatMap] at h
    obtain ⟨pr1, h1, h2⟩ := h
    exact Nat.le_trans (ihb pr1.1 pr1.2 pr h2) (iha p cs pr1 h1)
  | alt a b iha ihb =>
    intro p cs pr h
    simp only [reMatch, List.mem_append] at h
    rcases h with h | h
    · exact iha p cs pr h
    · exact ihb p cs pr h
  | opt a iha =>
    intro p cs pr h
    simp only [reMatch, List.mem_append, List.mem_singleton] at h
    rcases h with h | h
    · exact iha p cs pr h
    · subst h; exact Nat.le_refl _
  | starCls f =>
    intro p cs pr h
    simp only [reMatch, List.mem_map] at h
    obtain ⟨k, _, hk⟩ := h
    subst hk
    simp only [List.length_drop]
    exact Nat.sub_le _ _
  | plusCls f =>
    intro p cs pr h
    simp only [reMatch, List.mem_map] at h
    obtain ⟨k, _, hk⟩ := h
    subst hk
    simp only [List.length_drop]
    exact Nat.sub_le _ _
  | repCls f lo hi =>
    intro p cs pr h
    simp only [reMatch, List.mem_map] at h
    obtain ⟨k, _, hk⟩ := h
    subst hk
    simp only [List.length_drop]
    exact Nat.sub_le _ _
  | wb =>
    intro p cs pr h
    simp only [reMatch] at h
    split_ifs at h with hb
    · simp only [List.mem_singleton] at h
      subst h; exact Nat.le_refl _
    · exact absurd h (List.not_mem_nil pr)

/-- The mention pattern requires a leading `@`, so it matches nothing on the
empty input. -/
theorem mentionSeg_reMatch_nil (p : Option Char) :
    reMatch mentionSegRE p [] = [] := rfl

/-- Every mention match consumes at least one character (the `@`). -/
theorem mentionSeg_consumes (p : Option Char) (cs : List Char)
    (pr : Option Char × List Char) (h : pr ∈ reMatch mentionSegRE p cs) :
    pr.2.length < cs.length := by
  cases cs with
  | nil =>
    rw [mentionSeg_reMatch_nil] at h
    exact absurd h (List.not_mem_nil pr)
  | cons c cs' =>
    have hmem : pr ∈ (reMatch (RE.lit ['@']) p (c :: cs')).flatMap
        (fun q => reMatch
          (RE.seq (.plusCls mentionChSeg) (RE.seq parenSuffix RE.eps))
          q.1 q.2) := h
    rw [List.mem_flatMap] at hmem
    obtain ⟨q, hq, hpr⟩ := hmem
    by_cases hc : ('@' : Char) = c
    · have hlit : reMatch (RE.lit ['@']) p (c :: cs') =
          if ('@' : Char) = c then [(lastD ['@'] p, cs')] else [] := by
        show (match dropLit ['@'] (c :: cs') with
              | some rest => [(lastD ['@'] p, rest)]
              | none => []) = _
        show (match (if ('@' : Char) = c then some cs' else none) with
              | some rest => [(lastD ['@'] p, rest)]
              | none => []) = _
        rw [if_pos hc, if_pos hc]
      rw [hlit, if_pos hc, List.mem_singleton] at hq
      subst hq
      have hle := reMatch_length
        (RE.seq (.plusCls mentionChSeg) (RE.seq parenSuffix RE.eps)) _ _ pr hpr
      dsimp only at hle
      simp only [List.length_cons]
      omega
    · have hlit : reMatch (RE.lit ['@']) p (c :: cs') = [] := by
        show (match dropLit ['@'] (c :: cs') with
              | some rest => [(lastD ['@'] p, rest)]
              | none => []) = _
        show (match (if ('@' : Char) = c then some cs' else none) with
              | some rest => [(lastD ['@'] p, rest)]
              | none => []) = _
        rw [if_neg hc]
      rw [hlit] at hq
      exact absurd hq (List.not_mem_nil q)

/-- Geometry of a successful `re.search` for the mention pattern: the match
starts at or after the scan position, is nonempty, and lies inside the text. -/
theorem reSearchAux_mention :
    ∀ (cs : List Char) (p : Option Char) (pos st len : Nat),
      reSearchAux mentionSegRE p cs pos = some (st, len) →
      pos ≤ st ∧ 1 ≤ len ∧ st + len ≤ pos + cs.length := by
  intro cs
  induction cs with
  | nil =>
    intro p pos st len h
    have hn : reSearchAux mentionSegRE p [] pos = none := by
      show (match (reMatch mentionSegRE p []).head? with
            | some _ => some (pos, 0)
            | none => none) = none
      rw [mentionSeg_reMatch_nil]
      rfl
    rw [hn] at h
    exact Option.noConfusion h
  | cons c cs' ih =>
    intro p pos st len h
    rcases hh : (reMatch mentionSegRE p (c :: cs')).head? with _ | pr
    · have hrec : reSearchAux mentionSegRE p (c :: cs') pos =
          reSearchAux mentionSegRE (some c) cs' (pos + 1) := by
        show (match (reMatch mentionSegRE p (c :: cs')).head? with
              | some pr => some (pos, (c :: cs').length - pr.2.length)
              | none => reSearchAux mentionSegRE (some c) cs' (pos + 1)) = _
        rw [hh]
      rw [hrec] at h
      obtain ⟨h1, h2, h3⟩ := ih (some c) (pos + 1) st len h
      refine ⟨by omega, h2, ?_⟩
      simp only [List.length_cons]
      omega
    · have hsome : reSearchAux mentionSegRE p (c :: cs') pos =
          some (pos, (c :: cs').length - pr.2.length) := by
        show (match (reMatch mentionSegRE p (c :: cs')).head? with
              | some pr => some (pos, (c :: cs').length - pr.2.length)
              | none => reSearchAux mentionSegRE (some c) cs' (pos + 1)) = _
        rw [hh]
      rw [hsome] at h
      simp only [Option.some.injEq, Prod.mk.injEq] at h
      obtain ⟨hst, hlen⟩ := h
      have hmem : pr ∈ reMatch mentionSegRE p (c :: cs') :=
        List.mem_of_mem_head? (Option.mem_def.mpr hh)
      have hlt := mentionSeg_consumes p (c :: cs') pr hmem
      refine ⟨by omega, by omega, by omega⟩

/-- Invariant of the fuelled `finditer` loop for the mention pattern: all
matches are nonempty, start at or after the scan position, stay inside the
text, and successive matches do not overlap. -/
theorem reFindIterAux_mention :
    ∀ (fuel : Nat) (p : Option Char) (cs : List Char) (pos : Nat),
      (∀ m ∈ reFindIterAux mentionSegRE fuel p cs pos,
        pos ≤ m.1 ∧ 1 ≤ m.2 ∧ m.1 + m.2 ≤ pos + cs.length) ∧
      List.Chain' (fun a b => a.1 + a.2 ≤ b.1)
        (reFindIterAux mentionSegRE fuel p cs pos) := by
  intro fuel
  induction fuel with
  | zero =>
    intro p cs pos
    exact ⟨fun m hm => absurd hm (List.not_mem_nil m), List.chain'_nil⟩
  | succ fuel ih =>
    intro p cs pos
    rcases hs : reSearchAux mentionSegRE p cs pos with _ | ⟨st, len⟩
    · have hred : reFindIterAux mentionSegRE (fuel + 1) p cs pos = [] := by
        simp only [reFindIterAux, hs]
      rw [hred]
      exact ⟨fun m hm => absurd hm (List.not_mem_nil m), List.chain'_nil⟩
    · obtain ⟨hpos, hlen1, hbnd⟩ := reSearchAux_mention cs p pos st len hs
      have hred : reFindIterAux mentionSegRE (fuel + 1) p cs pos =
          (st, len) :: reFindIterAux mentionSegRE fuel
            (lastD (cs.take ((st - pos) + max len 1)) p)
            (cs.drop ((st - pos) + max len 1))
            (pos + ((st - pos) + max len 1)) := by
        simp only [reFindIterAux, hs]
      obtain ⟨ihmem, ihchain⟩ := ih (lastD (cs.take ((st - pos) + max len 1)) p)
        (cs.drop ((st - pos) + max len 1)) (pos + ((st - pos) + max len 1))
      rw [hred]
      have hdl : (cs.drop ((st - pos) + max len 1)).length =
          cs.length - ((st - pos) + max len 1) := List.length_drop _ _
      constructor
      · intro m hm
        rcases List.mem_cons.mp hm with hm | hm
        · subst hm; exact ⟨hpos, hlen1, hbnd⟩
        · obtain ⟨h1, h2, h3⟩ := ihmem m hm
          rw [hdl] at h3
          exact ⟨by omega, h2, by omega⟩
      · rw [List.chain'_cons']
        refine ⟨?_, ihchain⟩
        intro y hy
        have hym := List.mem_of_mem_head? hy
        obtain ⟨h1, _, _⟩ := ihmem y hym
        omega

/-- In a chain of non-overlapping matches, the head precedes every later
match. -/
theorem chain'_mention_rel (a : Nat × Nat) :
    ∀ (t : List (Nat × Nat)),
      List.Chain' (fun x y => x.1 + x.2 ≤ y.1) (a :: t) →
      ∀ b ∈ t, a.1 + a.2 ≤ b.1 := by
  intro t
  induction t generalizing a with
  | nil =>
    intro _ b hb
    exact absurd hb (List.not_mem_nil b)
  | cons c t ih =>
    intro h b hb
    have hac : a.1 + a.2 ≤ c.1 := (List.chain'_cons.mp h).1
    rcases List.mem_cons.mp hb with hb | hb
    · subst hb; exact hac
    · have := ih c (List.chain'_cons.mp h).2 b hb
      omega

/-- A chain of non-overlapping matches is pairwise ordered. -/
theorem chain'_mention_pairwise :
    ∀ (l : List (Nat × Nat)),
      List.Chain' (fun x y => x.1 + x.2 ≤ y.1) l →
      List.Pairwise (fun x y => x.1 + x.2 ≤ y.1) l := by
  intro l
  induction l with
  | nil => intro _; exact List.Pairwise.nil
  | cons a t ih =>
    intro h
    exact List.Pairwise.cons (chain'_mention_rel a t h) (ih h.tail)

/-- The mentions left over after clustering form a sublist of the input
mentions. -/
theorem clusterSplit_rest_sublist (text : List Char) :
    ∀ (rest : List (Nat × Nat)) (m : Nat × Nat),
      (clusterSplit text m rest).2.Sublist rest := by
  intro rest
  induction rest with
  | nil => intro m; simp [clusterSplit]
  | cons m2 rest ih =>
    intro m
    simp only [clusterSplit]
    split
    · exact List.Sublist.trans (ih m2) (List.sublist_cons_self m2 rest)
    · exact List.Sublist.refl _

/-- Every member of a cluster comes from the mention list it was built from. -/
theorem clusterSplit_cluster_mem (text : List Char) :
    ∀ (rest : List (Nat × Nat)) (m x : Nat × Nat),
      x ∈ (clusterSplit text m rest).1 → x ∈ m :: rest := by
  intro rest
  induction rest with
  | nil =>
    intro m x hx
    simp only [clusterSplit, List.mem_singleton] at hx
    subst hx
    exact List.mem_cons_self _ _
  | cons m2 rest ih =>
    intro m x hx
    simp only [clusterSplit] at hx
    split at hx
    · rcases List.mem_cons.mp hx with h | h
      · subst h; exact List.mem_cons_self _ _
      · exact List.mem_cons_of_mem m (ih m2 x h)
    · simp only [List.mem_singleton] at hx
      subst hx
      exact List.mem_cons_self _ _

theorem joinNL_nil : joinNL ([] : List (List Char)) = [] := rfl

theorem joinNL_single (x : List Char) : joinNL [x] = x := by
  simp [joinNL, List.intercalate]

theorem joinNL_cons_cons (x y : List Char) (ls : List (List Char)) :
    joinNL (x :: y :: ls) = x ++ '\n' :: joinNL (y :: ls) := rfl

/-- Taking a prefix of the lines can only shorten the rejoined text. -/
theorem joinNL_take_le :
    ∀ (ls : List (List Char)) (n : Nat),
      (joinNL (ls.take n)).length ≤ (joinNL ls).length := by
  intro ls
  induction ls with
  | nil => intro n; simp
  | cons x ls ih =>
    intro n
    cases n with
    | zero => simp [joinNL_nil]
    | succ n =>
      simp only [List.take_succ_cons]
      cases ls with
      | nil => simp
      | cons y ls' =>
        cases hn : (y :: ls').take n with
        | nil =>
          rw [joinNL_single, joinNL_cons_cons]
          simp
        | cons z zs =>
          rw [joinNL_cons_cons, joinNL_cons_cons]
          have hih := ih n
          rw [hn] at hih
          simp only [List.length_append, List.length_cons]
          omega

/-- Rejoining the result of `splitlines` never grows the text (separators are
replaced by single newlines or dropped). -/
theorem splitlines_join_le :
    ∀ (n : Nat) (l acc : List Char), l.length ≤ n →
      (joinNL (pySplitLinesAux l acc)).length ≤ acc.length + l.length := by
  intro n
  induction n with
  | zero =>
    intro l acc h
    have hl : l = [] := List.length_eq_zero.mp (Nat.le_zero.mp h)
    subst hl
    simp only [pySplitLinesAux]
    split_ifs <;> simp [joinNL_nil, joinNL_single]
  | succ n ih =>
    intro l acc h
    match l with
    | [] =>
      simp only [pySplitLinesAux]
      split_ifs <;> simp [joinNL_nil, joinNL_single]
    | [c] =>
      simp only [pySplitLinesAux]
      split_ifs <;> simp [joinNL_single] <;> omega
    | c :: d :: rest =>
      simp only [pySplitLinesAux]
      have hr2 : rest.length ≤ n := by
        simp only [List.length_cons] at h; omega
      have hr1 : (d :: rest).length ≤ n := by
        simp only [List.length_cons] at h ⊢; omega
      split_ifs with hcd hterm
      · have hrec := ih rest [] (by omega)
        cases hrest : pySplitLinesAux rest [] with
        | nil =>
          rw [joinNL_single]
          simp only [List.length_reverse, List.length_cons]
          omega
        | cons z zs =>
          rw [joinNL_cons_cons]
          rw [hrest] at hrec
          simp only [List.length_append, List.length_cons,
            List.length_reverse, List.length_nil] at hrec ⊢
          omega
      · have hrec := ih (d :: rest) [] hr1
        cases hrest : pySplitLinesAux (d :: rest) [] with
        | nil =>
          rw [joinNL_single]
          simp only [List.length_reverse, List.length_cons]
          omega
        | cons z zs =>
          rw [joinNL_cons_cons]
          rw [hrest] at hrec
          simp only [List.length_append, List.length_cons,
            List.length_reverse, List.length_nil] at hrec ⊢
          omega
      · have hrec := ih (d :: rest) (c :: acc) hr1
        simp only [List.length_cons] at hrec ⊢
        omega

theorem mkSegment_fst (text : List Char) (cS nS : Nat) :
    (mkSegment text cS nS).1 = cS - 50 := rfl

theorem mkSegment_end_eq (text : List Char) (cS nS : Nat) :
    (mkSegment text cS nS).2.1 = (cS - 50) + (mkSegment text cS nS).2.2.length := rfl

/-- The emitted segment text is no longer than the initial slice from the
backed-off start to the next mention. -/
theorem mkSegment_len_le (text : List Char) (cS nS : Nat) :
    (mkSegment text cS nS).2.2.length ≤ (sliceRange text (cS - 50) nS).length := by
  have htake : ∀ (s : List Char) (k : Nat), (s.take k).length ≤ s.length := by
    intro s k
    simp only [List.length_take]
    omega
  have hlines : ∀ (s : List Char),
      (if (pySplitLines s).length > 25 then joinNL ((pySplitLines s).take 25)
       else s).length ≤ s.length := by
    intro s
    split_ifs
    · refine Nat.le_trans (joinNL_take_le (pySplitLines s) 25) ?_
      have := splitlines_join_le s.length s [] (Nat.le_refl _)
      simpa [pySplitLines] using this
    · exact Nat.le_refl _
  simp only [mkSegment]
  rcases hB : reSearch blankLineRE (sliceRange text (cS - 50) nS) with _ | ⟨st, len⟩
  · dsimp only
    exact Nat.le_trans (htake _ 1500) (hlines _)
  · dsimp only
    exact Nat.le_trans (htake _ 1500) (Nat.le_trans (hlines _) (htake _ st))

/-- Packaged geometry of `mkSegment`: start, end decomposition and the length
bound against the next mention and the text length. -/
theorem mkSegment_bounds (text : List Char) (cS nS : Nat) :
    (mkSegment text cS nS).1 = cS - 50 ∧
    (mkSegment text cS nS).2.1 = (cS - 50) + (mkSegment text cS nS).2.2.length ∧
    (mkSegment text cS nS).2.2.length ≤ min nS text.length - (cS - 50) := by
  refine ⟨mkSegment_fst text cS nS, mkSegment_end_eq text cS nS, ?_⟩
  have h := mkSegment_len_le text cS nS
  simp only [sliceRange, List.length_take, List.length_drop] at h
  omega

/-- Invariant of the segment-building loop: outputs are ordered with overlap
bounded by the 50-character backoff, lie inside the text, and each is anchored
50 characters before the head of a cluster containing a self mention. -/
theorem buildSegsAux_inv (text : List Char) (u : UserCtx) :
    ∀ (fuel : Nat) (ms : List (Nat × Nat)),
      List.Pairwise (fun a b => a.1 + a.2 ≤ b.1) ms →
      (∀ x ∈ ms, x.1 + x.2 ≤ text.length) →
      List.Chain' (fun a b : Nat × Nat × List Char => a.1 ≤ b.1 ∧ a.2.1 ≤ b.1 + 50)
        (buildSegsAux text u fuel ms) ∧
      ∀ sg ∈ buildSegsAux text u fuel ms,
        sg.2.1 = sg.1 + sg.2.2.length ∧ sg.2.1 ≤ text.length ∧
        ∃ mh, mh ∈ ms ∧ sg.1 = mh.1 - 50 ∧
          ∃ mm, mm ∈ ms ∧ mh.1 ≤ mm.1 ∧ isSelfMatch text mm u = true := by
  intro fuel
  induction fuel with
  | zero =>
    intro ms _ _
    cases ms with
    | nil => exact ⟨List.chain'_nil, fun sg h => absurd h (List.not_mem_nil sg)⟩
    | cons m rest =>
      exact ⟨List.chain'_nil, fun sg h => absurd h (List.not_mem_nil sg)⟩
  | succ fuel ih =>
    intro ms hpw hbnd
    cases ms with
    | nil => exact ⟨List.chain'_nil, fun sg h => absurd h (List.not_mem_nil sg)⟩
    | cons m rest =>
      rcases hcs : clusterSplit text m rest with ⟨cl, rest2⟩
      have hsub : rest2.Sublist rest := by
        have := clusterSplit_rest_sublist text rest m
        rw [hcs] at this
        exact this
      have hclmem : ∀ x ∈ cl, x ∈ m :: rest := by
        intro x hx
        exact clusterSplit_cluster_mem text rest m x (by rw [hcs]; exact hx)
      have hRm : ∀ x ∈ rest, m.1 + m.2 ≤ x.1 := (List.pairwise_cons.mp hpw).1
      have hpw2 : List.Pairwise (fun a b => a.1 + a.2 ≤ b.1) rest2 :=
        (List.pairwise_cons.mp hpw).2.sublist hsub
      have hbnd2 : ∀ x ∈ rest2, x.1 + x.2 ≤ text.length :=
        fun x hx => hbnd x (List.mem_cons_of_mem m (hsub.subset hx))
      obtain ⟨ihchain, ihall⟩ := ih rest2 hpw2 hbnd2
      have hmbnd : m.1 + m.2 ≤ text.length := hbnd m (List.mem_cons_self m rest)
      -- weakened membership transfer for the tail conclusions
      have htail : ∀ sg ∈ buildSegsAux text u fuel rest2,
          sg.2.1 = sg.1 + sg.2.2.length ∧ sg.2.1 ≤ text.length ∧
          ∃ mh, mh ∈ m :: rest ∧ sg.1 = mh.1 - 50 ∧
            ∃ mm, mm ∈ m :: rest ∧ mh.1 ≤ mm.1 ∧ isSelfMatch text mm u = true := by
        intro sg hsg
        obtain ⟨h1, h2, mh, hmh, h3, mm, hmm, h4, h5⟩ := ihall sg hsg
        exact ⟨h1, h2, mh, List.mem_cons_of_mem m (hsub.subset hmh), h3,
          mm, List.mem_cons_of_mem m (hsub.subset hmm), h4, h5⟩
      by_cases hself : cl.any (fun mm => isSelfMatch text mm u) = true
      · -- a segment is emitted for this cluster
        obtain ⟨mm0, hmm0cl, hmm0⟩ := List.any_eq_true.mp hself
        have hmm0mem : mm0 ∈ m :: rest := hclmem mm0 hmm0cl
        have hmm0ge : m.1 ≤ mm0.1 := by
          rcases List.mem_cons.mp hmm0mem with h | h
          · subst h; exact Nat.le_refl _
          · have := hRm mm0 h; omega
        cases rest2 with
        | nil =>
          have hred : buildSegsAux text u (fuel + 1) (m :: rest) =
              [mkSegment text m.1 text.length] := by
            simp only [buildSegsAux, hcs, hself]
            rfl
          rw [hred]
          obtain ⟨hf, he, hl⟩ := mkSegment_bounds text m.1 text.length
          refine ⟨List.chain'_singleton _, ?_⟩
          intro sg hsg
          rcases List.mem_cons.mp hsg with hsg | hsg
          · subst hsg
            refine ⟨by omega, by omega, m, List.mem_cons_self m rest, hf, mm0,
              hmm0mem, hmm0ge, hmm0⟩
          · exact absurd hsg (List.not_mem_nil sg)
        | cons h0 t0 =>
          have hh0rest : h0 ∈ rest := hsub.subset (List.mem_cons_self h0 t0)
          have hh0bnd : h0.1 + h0.2 ≤ text.length := hbnd2 h0 (List.mem_cons_self h0 t0)
          have hmh0 : m.1 + m.2 ≤ h0.1 := hRm h0 hh0rest
          have hred : buildSegsAux text u (fuel + 1) (m :: rest) =
              mkSegment text m.1 h0.1 :: buildSegsAux text u fuel (h0 :: t0) := by
            simp only [buildSegsAux, hcs, hself]
            rfl
          rw [hred]
          obtain ⟨hf, he, hl⟩ := mkSegment_bounds text m.1 h0.1
          have hend : (mkSegment text m.1 h0.1).2.1 ≤ h0.1 := by omega
          constructor
          · rw [List.chain'_cons']
            refine ⟨?_, ihchain⟩
            intro y hy
            have hym := List.mem_of_mem_head? hy
            obtain ⟨_, _, mh, hmh, hy1, _⟩ := ihall y hym
            have hmhge : h0.1 ≤ mh.1 := by
              rcases List.mem_cons.mp hmh with h | h
              · subst h; exact Nat.le_refl _
              · have := (List.pairwise_cons.mp hpw2).1 mh h; omega
            have hmge : m.1 + m.2 ≤ mh.1 := hRm mh (hsub.subset hmh)
            constructor
            · rw [hf, hy1]; omega
            · rw [hy1]; omega
          · intro sg hsg
            rcases List.mem_cons.mp hsg with hsg | hsg
            · subst hsg
              refine ⟨by omega, by omega, m, List.mem_cons_self m rest, hf, mm0,
                hmm0mem, hmm0ge, hmm0⟩
            · exact htail sg hsg
      · -- cluster skipped; output is the tail
        have hred : buildSegsAux text u (fuel + 1) (m :: rest) =
            buildSegsAux text u fuel rest2 := by
          simp only [buildSegsAux, hcs]
          rw [if_neg hself]
        rw [hred]
        exact ⟨ihchain, htail⟩

/-- C3 (amended): the segments of `_get_self_mention_segments` are produced in
nondecreasing start order and consecutive segments overlap by at most the
50-character backoff (previous end ≤ next start + 50); every segment satisfies
`end = start + length(text)` and `end ≤ length(body)`; and every segment is
anchored 50 characters before the head mention of a cluster that contains a
self mention.  (The claim's strict non-overlap and its guarantee that the
segment text contains a cluster mention are both false, see the
counterexample.) -/
theorem c3_segmenter_amended (text : String) (u : UserCtx) :
    List.Chain' (fun a b : Nat × Nat × List Char => a.1 ≤ b.1 ∧ a.2.1 ≤ b.1 + 50)
      (getSelfMentionSegments text u) ∧
    ∀ sg ∈ getSelfMentionSegments text u,
      sg.2.1 = sg.1 + sg.2.2.length ∧ sg.2.1 ≤ text.toList.length ∧
      ∃ mh, mh ∈ reFindIter mentionSegRE text.toList ∧ sg.1 = mh.1 - 50 ∧
        ∃ mm, mm ∈ reFindIter mentionSegRE text.toList ∧ mh.1 ≤ mm.1 ∧
          isSelfMatch text.toList mm u = true := by
  obtain ⟨hmem, hchain⟩ :=
    reFindIterAux_mention (text.toList.length + 1) none text.toList 0
  by_cases hE : (reFindIter mentionSegRE text.toList).isEmpty = true
  · have hseg : getSelfMentionSegments text u = [] := by
      simp only [getSelfMentionSegments, hE, if_true]
    rw [hseg]
    exact ⟨List.chain'_nil, fun sg hsg => absurd hsg (List.not_mem_nil sg)⟩
  · have hseg : getSelfMentionSegments text u =
        buildSegsAux text.toList u (reFindIter mentionSegRE text.toList).length
          (reFindIter mentionSegRE text.toList) := by
      simp only [getSelfMentionSegments]
      exact if_neg hE
    have hpw : List.Pairwise (fun a b => a.1 + a.2 ≤ b.1)
        (reFindIter mentionSegRE text.toList) :=
      chain'_mention_pairwise _ hchain
    have hbnd : ∀ x ∈ reFindIter mentionSegRE text.toList,
        x.1 + x.2 ≤ text.toList.length := by
      intro x hx
      have := (hmem x hx).2.2
      omega
    obtain ⟨hc, hall⟩ := buildSegsAux_inv text.toList u
      (reFindIter mentionSegRE text.toList).length
      (reFindIter mentionSegRE text.toList) hpw hbnd
    rw [hseg]
    exact ⟨hc, hall⟩

def c3Text : String := "@박지훈 a\n@박지훈 b"

def c3Text2 : String := String.mk (List.replicate 48 'x' ++ "\n\n@박지훈".toList)

/-- C3 counterexample: on `"@박지훈 a\n@박지훈 b"` the two emitted segments are
`(0, 7)` and `(0, 13)` — the second *starts before the first ends* (the
50-character backoff reaches back over the previous segment), refuting the
claimed non-overlap; and on 48 filler characters followed by a blank line and
`"@박지훈"` the single emitted segment is cut at the blank line and contains
no mention at all, refuting the claimed cluster-mention containment. -/
theorem c3_counterexample :
    (∃ s1 s2, getSelfMentionSegments c3Text uPark = [s1, s2] ∧ s2.1 < s1.2.1) ∧
    (∃ sg, getSelfMentionSegments c3Text2 uPark = [sg] ∧
      ∀ m ∈ reFindIter mentionSegRE c3Text2.toList,
        containsSub sg.2.2 (sliceRange c3Text2.toList m.1 (m.1 + m.2)) = false) := by
  constructor
  · exact ⟨(0, 7, "@박지훈 a\n".toList), (0, 13, c3Text.toList), by decide, by decide⟩
  · exact ⟨(0, 48, List.replicate 48 'x'), by decide, by decide⟩

/-- C3 witness: on `"@박지훈 확인"` the amended theorem's per-segment conclusion
holds at the concrete emitted segment `(0, 7)`. -/
theorem c3_witness :
    ((0, 7, "@박지훈 확인".toList) : Nat × Nat × List Char) ∈
      getSelfMentionSegments "@박지훈 확인" uPark ∧
    ((7 : Nat) = 0 + "@박지훈 확인".toList.length ∧
      7 ≤ "@박지훈 확인".toList.length ∧
      ∃ mh, mh ∈ reFindIter mentionSegRE "@박지훈 확인".toList ∧ (0 : Nat) = mh.1 - 50 ∧
        ∃ mm, mm ∈ reFindIter mentionSegRE "@박지훈 확인".toList ∧ mh.1 ≤ mm.1 ∧
          isSelfMatch "@박지훈 확인".toList mm uPark = true) :=
  ⟨by decide,
    (c3_segmenter_amended "@박지훈 확인" uPark).2 (0, 7, "@박지훈 확인".toList)
      (by decide)⟩

end Mail2Do
